import Mathlib

/-!
Verification development for the cucu HTML report aggregation engine
(`src/cucu/reporter/html.py`).

The Python code is shallowly embedded: dictionaries become structures with
`Option` fields for keys that may be absent, for-loops become structural
recursions, and the exceptions that escape `generate` are modelled with
`Except String`.  Filesystem reads are abstracted into an `FS` record of
total functions; external collaborators (`urllib.parse.quote`,
`parse_log_to_html`, the configured tag/sub-header handlers) are parameters
of the embedding, as their internals are outside the aggregation core.
Timestamps are modelled as integers (seconds); `datetime.fromisoformat` is
modelled by a decimal-string parse that fails exactly on malformed input,
and datetime subtraction becomes integer subtraction.
Durations are modelled as integers.  Display-only rewriting of step
`text`/`table` blocks and the physical copying of artifact directories are
not modelled: no property below depends on them.
-/

/-- Python `"/" in`-style substring test: `needle` occurs inside `hay`. -/
def containsSub (needle hay : String) : Bool :=
  decide (needle.data <:+: hay.data)

/-- Python `str.removeprefix`: drop `p` from the front of `s` when present,
otherwise return `s` unchanged. -/
def stripLeading (p s : String) : String :=
  if p.data.isPrefixOf s.data then String.mk (s.data.drop p.data.length) else s

/-- Python `os.path.basename`: the part of the path after the last slash. -/
def basename (s : String) : String :=
  String.mk ((s.data.reverse.takeWhile (fun c => c ≠ '/')).reverse)

/-- Python `os.path.join` for the relative path segments used here. -/
def joinPath (a b : String) : String := a ++ "/" ++ b

/-- Python `step['name'].replace('/', '_')`: every slash becomes an
underscore. -/
def slashToUnderscore (s : String) : String :=
  String.mk (s.data.map (fun c => if c = '/' then '_' else c))

/-- Python `str.startswith` for a single-character pattern. -/
def startsWithChar (c : Char) (s : String) : Bool :=
  match s.data with
  | [] => false
  | d :: _ => d = c

/-- The value of a decimal digit, when `c` is one. -/
def digitVal (c : Char) : Option Nat :=
  if '0' ≤ c ∧ c ≤ '9' then some (c.toNat - '0'.toNat) else none

/-- Accumulates a run of decimal digits; any other character fails. -/
def parseDigitsAux : List Char → Nat → Option Nat
  | [], acc => some acc
  | c :: rest, acc =>
    match digitVal c with
    | none => none
    | some d => parseDigitsAux rest (acc * 10 + d)

/-- A non-empty digit run. -/
def parseDigits : List Char → Option Nat
  | [] => none
  | cs => parseDigitsAux cs 0

/-- Model of `datetime.fromisoformat`: timestamps are integers
(seconds) rendered as optionally signed decimal strings; anything else is
malformed and the parse fails, which models the `ValueError` the real
parser raises. -/
def parseTimestamp (s : String) : Option Int :=
  match s.data with
  | [] => none
  | c :: rest =>
    if c = '-' then (parseDigits rest).map (fun n => -(n : Int))
    else (parseDigits (c :: rest)).map (fun n => (n : Int))

/-! ## Raw input records (the parsed `*run.json` content) -/

/-- The `step['result']` object as found in a run fragment. -/
structure RawResult where
  status : String
  timestamp : String
  duration : Int
  deriving Repr, DecidableEq

/-- A step record of a scenario. -/
structure RawStep where
  name : String
  result : Option RawResult
  deriving Repr, DecidableEq

/-- A scenario record; `status` and `tags` keys may be absent. -/
structure RawScenario where
  name : String
  status : Option String
  tags : Option (List String)
  steps : List RawStep
  deriving Repr, DecidableEq

/-- A feature record; `tags` and `elements` keys may be absent. -/
structure RawFeature where
  name : String
  status : String
  tags : Option (List String)
  elements : Option (List RawScenario)
  deriving Repr, DecidableEq

/-! ## Tag processing (`process_tags`) -/

/-- One entry of `CONFIG["__CUCU_HTML_REPORT_TAG_HANDLERS"]`: a match
predicate (the compiled regex's `match`) and a transform. -/
def TagHandler : Type := (String → Bool) × (String → String)

/-- The inner `for regex, handler in ...: if regex.match(tag): tag =
handler(tag)` loop: every matching handler is applied, in order, each one
to the tag text produced so far. -/
def runTagHandlers (handlers : List TagHandler) (tag : String) : String :=
  match handlers with
  | [] => tag
  | h :: rest => runTagHandlers rest (if h.1 tag then h.2 tag else tag)

/-- The `for tag in element["tags"]` loop body building `prepared_tags`. -/
def prepareTags (handlers : List TagHandler) : List String → List String
  | [] => []
  | tag :: rest => runTagHandlers handlers ("@" ++ tag) :: prepareTags handlers rest

/-- Embeds `process_tags(element)`: absent tags leave the element untouched
(`none` stays `none`); present tags are `@`-prefixed, run through the
handlers, and joined with single spaces into one display string. -/
def process_tags (handlers : List TagHandler) :
    Option (List String) → Option String
  | none => none
  | some tags => some (" ".intercalate (prepareTags handlers tags))

/-! ## Processed (annotated) records -/

/-- A step result's `timestamp` value after processing: the raw string is
replaced by the parsed datetime only on timed (`passed`/`failed`) steps. -/
inductive TsVal where
  | raw : String → TsVal
  | parsed : Int → TsVal
  deriving Repr, DecidableEq

/-- The `step['result']` object after processing. -/
structure ResultOut where
  status : String
  timestamp : TsVal
  duration : Int
  time_offset : Option Int
  deriving Repr, DecidableEq

/-- A step record after processing. -/
structure StepOut where
  name : String
  heading_level : Option String
  image : Option String
  result : Option ResultOut
  deriving Repr, DecidableEq

/-- The conventional screenshot filename
`f"{step_index} - {step['name'].replace('/', '_')}.png"`. -/
def imageFilename (idx : Nat) (name : String) : String :=
  toString idx ++ " - " ++ slashToUnderscore name ++ ".png"

/-- The filesystem as seen by the aggregation engine: path-existence
tests, the glob of a scenario's `logs` directory (returning full paths),
and text reads (modelled total). -/
structure FS where
  pathExists : String → Bool
  listLogs : String → List String
  readText : String → String

/-- The ambient configuration and external collaborators used by
`generate`: tag handlers, scenario sub-header handlers, `urllib`'s quote
and `parse_log_to_html`. -/
structure Config where
  tagHandlers : List TagHandler
  subHandlers : List (RawScenario → String)
  urlQuote : String → String
  parseLogToHtml : String → String

/-- The body of the `for step in scenario["steps"]` loop: computes the
conventional screenshot name, attaches `heading_level`/`image`, and for a
timed result parses the timestamp (a parse failure is an uncaught
exception), fixes the scenario anchor on the first timed step, and stores
the offset from the anchor.  Returns the processed step, the updated
anchor and the step's contribution to `scenario_duration`. -/
def processStep (fs : FS) (urlQuote : String → String) (scenarioPath : String)
    (idx : Nat) (anchor : Option Int) (step : RawStep) :
    Except String (StepOut × Option Int × Int) :=
  let fname := imageFilename idx step.name
  let heading : Option String :=
    if startsWithChar '#' step.name then some "h4" else none
  let image : Option String :=
    if fs.pathExists (joinPath scenarioPath fname) then some (urlQuote fname)
    else none
  match step.result with
  | none =>
    .ok ({ name := step.name, heading_level := heading, image := image,
           result := none }, anchor, 0)
  | some r =>
    if r.status = "failed" ∨ r.status = "passed" then
      match parseTimestamp r.timestamp with
      | none => .error ("invalid isoformat string: " ++ r.timestamp)
      | some ts =>
        let anchor' := match anchor with | none => ts | some a => a
        .ok ({ name := step.name, heading_level := heading, image := image,
               result := some { status := r.status, timestamp := .parsed ts,
                                duration := r.duration,
                                time_offset := some (ts - anchor') } },
             some anchor', r.duration)
    else
      .ok ({ name := step.name, heading_level := heading, image := image,
             result := some { status := r.status, timestamp := .raw r.timestamp,
                              duration := r.duration, time_offset := none } },
           anchor, r.duration)

/-- The step loop itself, threading `step_index`, the scenario anchor and
the running `scenario_duration`. -/
def processSteps (fs : FS) (urlQuote : String → String) (scenarioPath : String)
    (idx : Nat) (anchor : Option Int) :
    List RawStep → Except String (List StepOut × Option Int × Int)
  | [] => .ok ([], anchor, 0)
  | step :: rest =>
    match processStep fs urlQuote scenarioPath idx anchor step with
    | .error e => .error e
    | .ok (s, anchor1, d) =>
      match processSteps fs urlQuote scenarioPath (idx + 1) anchor1 rest with
      | .error e => .error e
      | .ok (ss, anchor2, drest) => .ok (s :: ss, anchor2, d + drest)

/-! ## Log files and scenario processing -/

/-- One entry of `scenario["logs"]`: display `filepath` (relative to the
scenario directory, console logs pointing at the `.html` sibling) and the
file's base `name`. -/
structure LogEntry where
  filepath : String
  name : String
  deriving Repr, DecidableEq

/-- Builds one `log_files` entry from a globbed full path: strip the
scenario directory, then append `.html` when the relative path contains
the console marker. -/
def mkLogEntry (scenarioPath : String) (logFile : String) : LogEntry :=
  let p := stripLeading (scenarioPath ++ "/") logFile
  let p := if containsSub ".console." p then p ++ ".html" else p
  { filepath := p, name := basename logFile }

/-- A `started_at` value: either the empty-string sentinel stored for
untimed elements or an actual anchor timestamp. -/
inductive TimeVal where
  | emptyStr : TimeVal
  | time : Int → TimeVal
  deriving Repr, DecidableEq

/-- A scenario record after processing.  `Option` fields model dictionary
keys that the code may leave absent. -/
structure ScenOut where
  name : String
  status : Option String
  tags : Option String
  sub_headers : String
  steps : List StepOut
  logs : Option (List LogEntry)
  started_at : Option TimeVal
  time_offset : Option Int
  duration : Int
  total_steps : Nat
  deriving Repr, DecidableEq

/-- The body of the `for scenario in scenarios` loop.  `logState` is the
value of the Python local `log_files`, which leaks across loop iterations:
it is rebound only when the current scenario has a `logs` directory, and
reading it while still unbound raises a `NameError`.  The console-log
rendering (read, transform, write the `.html` sibling) happens only in the
branch where the scenario has a timed anchor; its writes are returned as
`(path, content)` pairs. -/
def processScenario (cfg : Config) (fs : FS) (basepath featureName : String)
    (featAnchor : Option Int) (logState : Option (List LogEntry))
    (scenario : RawScenario) :
    Except String (ScenOut × Option Int × Option (List LogEntry) × List (String × String)) :=
  let tags := process_tags cfg.tagHandlers scenario.tags
  let subHeaders := "<br/>".intercalate (cfg.subHandlers.map (fun h => h scenario))
  let scenarioPath := joinPath (joinPath basepath featureName) scenario.name
  match processSteps fs cfg.urlQuote scenarioPath 0 none scenario.steps with
  | .error e => .error e
  | .ok (steps, anchor, dur) =>
  let logsDir := joinPath scenarioPath "logs"
  let (logsField, logState') :=
    if fs.pathExists logsDir then
      let entries := (fs.listLogs logsDir).map (mkLogEntry scenarioPath)
      (some entries, some entries)
    else (none, logState)
  match anchor with
  | none =>
    .ok ({ name := scenario.name, status := scenario.status, tags := tags,
           sub_headers := subHeaders, steps := steps, logs := logsField,
           started_at := some .emptyStr, time_offset := none,
           duration := dur, total_steps := scenario.steps.length },
         featAnchor, logState', [])
  | some a =>
    let featAnchor' := match featAnchor with | none => a | some fa => fa
    match logState' with
    | none => .error "NameError: name of the log files list is not defined"
    | some entries =>
      let writes := (entries.filter (fun e => containsSub ".console." e.name)).map
        (fun e =>
          let p := joinPath (joinPath scenarioPath "logs") e.name
          (p ++ ".html", cfg.parseLogToHtml (fs.readText p)))
      .ok ({ name := scenario.name, status := scenario.status, tags := tags,
             sub_headers := subHeaders, steps := steps, logs := logsField,
             started_at := some (.time a), time_offset := some (a - featAnchor'),
             duration := dur, total_steps := scenario.steps.length },
           some featAnchor', logState', writes)

/-- The scenario loop, threading the feature anchor, the leaked
`log_files` binding and the accumulated log writes. -/
def processScenarios (cfg : Config) (fs : FS) (basepath featureName : String)
    (featAnchor : Option Int) (logState : Option (List LogEntry)) :
    List RawScenario →
    Except String (List ScenOut × Option Int × Option (List LogEntry) × List (String × String))
  | [] => .ok ([], featAnchor, logState, [])
  | s :: rest =>
    match processScenario cfg fs basepath featureName featAnchor logState s with
    | .error e => .error e
    | .ok (out, fa1, ls1, w1) =>
      match processScenarios cfg fs basepath featureName fa1 ls1 rest with
      | .error e => .error e
      | .ok (outs, fa2, ls2, w2) => .ok (out :: outs, fa2, ls2, w1 ++ w2)

/-! ## Feature processing, loading and `generate` -/

/-- A feature record after processing. -/
structure ProcFeature where
  name : String
  status : String
  tags : Option String
  scenarios : List ScenOut
  started_at : Option TimeVal
  total_steps : Nat
  duration : Int
  total_scenarios : Nat
  total_scenarios_passed : Nat
  total_scenarios_failed : Nat
  total_scenarios_skipped : Nat
  deriving Repr, DecidableEq

/-- The running scenario classification counters of a feature. -/
structure Counters where
  passed : Nat
  failed : Nat
  skipped : Nat
  deriving Repr, DecidableEq

/-- One classification: a missing status counts as skipped; `passed`,
`failed` and `skipped` go to their own buckets; any other status value
falls through every branch and bumps no bucket. -/
def bumpCounters (c : Counters) (status : Option String) : Counters :=
  match status with
  | none => { c with skipped := c.skipped + 1 }
  | some s =>
    if s = "passed" then { c with passed := c.passed + 1 }
    else if s = "failed" then { c with failed := c.failed + 1 }
    else if s = "skipped" then { c with skipped := c.skipped + 1 }
    else c

/-- The counters accumulated over a scenario list. -/
def countScenarios (scenarios : List RawScenario) : Counters :=
  scenarios.foldl (fun c s => bumpCounters c s.status) ⟨0, 0, 0⟩

/-- Embeds `scenarios = feature["elements"] if feature["status"] != "untested"
and "elements" in feature else []`. -/
def featureScenarios (f : RawFeature) : List RawScenario :=
  match f.elements with
  | some es => if f.status = "untested" then [] else es
  | none => []

/-- The body of the `for feature in features` loop: an `only_failures`
mismatch `continue`s (producing no reported feature and leaving all state
untouched); otherwise the feature's tags are rewritten, its scenarios are
processed, and the derived rollup fields are attached. -/
def processFeature (cfg : Config) (fs : FS) (basepath : String)
    (only_failures : Bool) (logState : Option (List LogEntry)) (f : RawFeature) :
    Except String (Option ProcFeature × Option (List LogEntry) × List (String × String)) :=
  let scenarios := featureScenarios f
  if only_failures = true ∧ f.status ≠ "failed" then .ok (none, logState, [])
  else
    let tags := process_tags cfg.tagHandlers f.tags
    match processScenarios cfg fs basepath f.name none logState scenarios with
    | .error e => .error e
    | .ok (outs, featAnchor, logState', writes) =>
    let counters := countScenarios scenarios
    let started : Option TimeVal :=
      match featAnchor with
      | none => some .emptyStr
      | some a => some (.time a)
    .ok (some { name := f.name, status := f.status, tags := tags,
                scenarios := outs, started_at := started,
                total_steps := (outs.map (fun s => s.total_steps)).sum,
                duration := (outs.map (fun s => s.duration)).sum,
                total_scenarios := scenarios.length,
                total_scenarios_passed := counters.passed,
                total_scenarios_failed := counters.failed,
                total_scenarios_skipped := counters.skipped },
         logState', writes)

/-- The feature loop, collecting `reported_features`. -/
def processFeatures (cfg : Config) (fs : FS) (basepath : String)
    (only_failures : Bool) (logState : Option (List LogEntry)) :
    List RawFeature →
    Except String (List ProcFeature × Option (List LogEntry) × List (String × String))
  | [] => .ok ([], logState, [])
  | f :: rest =>
    match processFeature cfg fs basepath only_failures logState f with
    | .error e => .error e
    | .ok (pf, ls1, w1) =>
      match processFeatures cfg fs basepath only_failures ls1 rest with
      | .error e => .error e
      | .ok (pfs, ls2, w2) =>
        match pf with
        | some p => .ok (p :: pfs, ls2, w1 ++ w2)
        | none => .ok (pfs, ls2, w1 ++ w2)

/-- One `*run.json` input file.  `open()` sits outside the `try`, so a
failure to open raises straight out of `generate`; the read-and-parse
inside the `try` either yields the file's feature list or an error that is
caught. -/
inductive FileInput where
  | openFail (path msg : String)
  | content (path : String) (parse : Except String (List RawFeature))

/-- The fragment-loading loop: concatenates the feature lists of the
files whose read-and-parse succeeds, records a warning for each caught
read/parse failure, and propagates an open failure as a fatal error. -/
def loadFragments : List FileInput → Except String (List RawFeature × List String)
  | [] => .ok ([], [])
  | .openFail _ msg :: _ => .error msg
  | .content path res :: rest =>
    match loadFragments rest with
    | .error e => .error e
    | .ok (features, warns) =>
      match res with
      | .ok fs => .ok (fs ++ features, warns)
      | .error e =>
        .ok (features, ("unable to read file " ++ path ++ ", got error: " ++ e) :: warns)

/-- The `grand_totals` map. -/
structure GrandTotals where
  total_scenarios : Nat
  total_scenarios_passed : Nat
  total_scenarios_failed : Nat
  total_scenarios_skipped : Nat
  duration : Int
  deriving Repr, DecidableEq

/-- Embeds `grand_totals[k] = sum([x[k] for x in reported_features])` for each of
the five keys. -/
def computeTotals (features : List ProcFeature) : GrandTotals :=
  { total_scenarios := (features.map (fun f => f.total_scenarios)).sum,
    total_scenarios_passed := (features.map (fun f => f.total_scenarios_passed)).sum,
    total_scenarios_failed := (features.map (fun f => f.total_scenarios_failed)).sum,
    total_scenarios_skipped := (features.map (fun f => f.total_scenarios_skipped)).sum,
    duration := (features.map (fun f => f.duration)).sum }

/-- Everything `generate` computes that the claims inspect: the retained
features with their derived fields, the grand totals, the warnings of the
fragment loader and the console-log `.html` writes. -/
structure Output where
  reported_features : List ProcFeature
  grand_totals : GrandTotals
  warnings : List String
  log_writes : List (String × String)

/-- Embeds `generate(results, basepath, only_failures)`: load the fragments,
process every feature, and compute the grand totals over exactly the
reported features.  Any uncaught exception surfaces as `.error`. -/
def generate (cfg : Config) (fs : FS) (files : List FileInput)
    (basepath : String) (only_failures : Bool) : Except String Output :=
  match loadFragments files with
  | .error e => .error e
  | .ok (features, warnings) =>
    match processFeatures cfg fs basepath only_failures none features with
    | .error e => .error e
    | .ok (reported, _, writes) =>
      .ok { reported_features := reported, grand_totals := computeTotals reported,
            warnings := warnings, log_writes := writes }

/-! ## Derived notions used to state the properties -/

/-- A step contributes to timing when it has a result whose status is
`passed` or `failed`. -/
def timedStep (step : RawStep) : Bool :=
  match step.result with
  | some r => decide (r.status = "failed" ∨ r.status = "passed")
  | none => false

/-- A scenario status value covered by the four classification buckets:
absent, or one of `passed`/`failed`/`skipped`. -/
def goodStatus (status : Option String) : Prop :=
  status = none ∨ status = some "passed" ∨ status = some "failed" ∨
    status = some "skipped"

/-- A feature survives the `only_failures` filter. -/
def keepFeature (only_failures : Bool) (f : RawFeature) : Bool :=
  !only_failures || (f.status == "failed")

/-- The sum of the `duration` fields over every step result present in a
step list, whatever the result's status. -/
def sumStepDurations (steps : List RawStep) : Int :=
  (steps.map (fun st =>
    match st.result with
    | some r => r.duration
    | none => 0)).sum

/-- Spec-modelled tag semantics, for comparison with `runTagHandlers`:
only the FIRST rule whose pattern matches the tag has its transform
applied, per the specification's words. -/
def runFirstMatchingHandler (handlers : List TagHandler) (tag : String) : String :=
  match handlers with
  | [] => tag
  | h :: rest => if h.1 tag then h.2 tag else runFirstMatchingHandler rest tag

/-- Spec-modelled `process_tags`, built on the first-match rule
application dictated by the specification. -/
def process_tags_firstmatch (handlers : List TagHandler) :
    Option (List String) → Option String
  | none => none
  | some tags =>
    some (" ".intercalate (tags.map (fun tag =>
      runFirstMatchingHandler handlers ("@" ++ tag))))

/-- The file opened without raising. -/
def opensOk : FileInput → Bool
  | .openFail _ _ => false
  | .content _ _ => true

/-- The concatenation of the feature lists of the files whose
read-and-parse succeeded, in file order. -/
def mergedOk : List FileInput → List RawFeature
  | [] => []
  | .openFail _ _ :: rest => mergedOk rest
  | .content _ (.ok fs) :: rest => fs ++ mergedOk rest
  | .content _ (.error _) :: rest => mergedOk rest

/-- The loader warnings: one per caught read/parse failure, in file
order. -/
def loadWarnings : List FileInput → List String
  | [] => []
  | .openFail _ _ :: rest => loadWarnings rest
  | .content _ (.ok _) :: rest => loadWarnings rest
  | .content path (.error e) :: rest =>
    ("unable to read file " ++ path ++ ", got error: " ++ e) :: loadWarnings rest

/-! ## Concrete fixtures used by witnesses and counterexamples -/

/-- A configuration with no tag or sub-header handlers and identity
collaborators. -/
def cfgNoop : Config :=
  { tagHandlers := [], subHandlers := [], urlQuote := id, parseLogToHtml := id }

/-- An empty filesystem. -/
def fsEmpty : FS :=
  { pathExists := fun _ => false, listLogs := fun _ => [], readText := fun _ => "" }

/-- A scenario whose status is the string `"untested"`: counted in
`total_scenarios` but in no classification bucket. -/
def scenUntested : RawScenario := ⟨"S", some "untested", none, []⟩

/-- A passed feature containing only `scenUntested`. -/
def featMixed : RawFeature := ⟨"F", "passed", none, some [scenUntested]⟩

/-- A passed scenario with no steps. -/
def scenVal : RawScenario := ⟨"SV", some "passed", none, []⟩

/-- A passed feature owning `scenVal`. -/
def featLogin : RawFeature := ⟨"Login", "passed", none, some [scenVal]⟩

/-- The processed form of `scenVal`. -/
def scenOutVal : ScenOut :=
  ⟨"SV", some "passed", none, "", [], none, some .emptyStr, none, 0, 0⟩

/-- The processed form of `featLogin`. -/
def pfC1w : ProcFeature :=
  ⟨"Login", "passed", none, [scenOutVal], some .emptyStr, 0, 0, 1, 1, 0, 0⟩

/-- The `generate` output over the single fragment `[featLogin]`. -/
def oC1w : Output := ⟨[pfC1w], ⟨1, 1, 0, 0, 0⟩, [], []⟩

/-- A step with no result. -/
def stepPlain : RawStep := ⟨"a", none⟩

/-- The step named `click "Submit"`. -/
def stepClick : RawStep := ⟨"click \"Submit\"", none⟩

/-- A scenario whose step at index 2 is `stepClick`. -/
def scenC2 : RawScenario := ⟨"S", none, none, [stepPlain, stepPlain, stepClick]⟩

/-- A filesystem holding exactly the file the claim predicts,
`2 - click _Submit_.png`. -/
def fsC2 : FS :=
  ⟨fun p => p == "report/F/S/2 - click _Submit_.png", fun _ => [], fun _ => ""⟩

/-- A filesystem holding the screenshot under the name the code actually
computes for index 2 of `click "Submit"`. -/
def fsC2w : FS :=
  ⟨fun p => p == "report/F/S/2 - click \"Submit\".png", fun _ => [], fun _ => ""⟩

/-- The processed steps of `scenC2` under `fsC2w`. -/
def outC2w : ScenOut :=
  ⟨"S", none, none, "", [⟨"a", none, none, none⟩, ⟨"a", none, none, none⟩,
    ⟨"click \"Submit\"", none, some "2 - click \"Submit\".png", none⟩],
   none, some .emptyStr, none, 0, 3⟩

/-- A scenario with one skipped step (duration 3, no usable timestamp):
untimed, so no anchor is ever fixed. -/
def scenC3 : RawScenario :=
  ⟨"S3", none, none, [⟨"s1", some ⟨"skipped", "x", 3⟩⟩]⟩

/-- The processed form of `scenC3`. -/
def outC3w : ScenOut :=
  ⟨"S3", none, none, "", [⟨"s1", none, none, some ⟨"skipped", .raw "x", 3, none⟩⟩],
   none, some .emptyStr, none, 3, 1⟩

/-- A scenario with a skipped step (duration 3) and a passed step
(duration 2, timestamp 10): total duration 5. -/
def scenC4 : RawScenario :=
  ⟨"S4", some "passed", none,
   [⟨"s1", some ⟨"skipped", "x", 3⟩⟩, ⟨"s2", some ⟨"passed", "10", 2⟩⟩]⟩

/-- A feature owning `scenC4`. -/
def featC4 : RawFeature := ⟨"F4", "passed", none, some [scenC4]⟩

/-- The processed form of `scenC4`. -/
def outC4w : ScenOut :=
  ⟨"S4", some "passed", none, "",
   [⟨"s1", none, none, some ⟨"skipped", .raw "x", 3, none⟩⟩,
    ⟨"s2", none, none, some ⟨"passed", .parsed 10, 2, some 0⟩⟩],
   none, some (.time 10), some 0, 5, 2⟩

/-- The processed form of `featC4`. -/
def pfC4w : ProcFeature :=
  ⟨"F4", "passed", none, [outC4w], some (.time 10), 2, 5, 1, 1, 0, 0⟩

/-- A scenario with an untimed first step, then two timed steps at
timestamps 10 and 17. -/
def scenC5 : RawScenario :=
  ⟨"S5", some "failed", none,
   [⟨"s0", none⟩, ⟨"s1", some ⟨"passed", "10", 1⟩⟩,
    ⟨"s2", some ⟨"failed", "17", 2⟩⟩]⟩

/-- The processed form of `scenC5`: anchor 10, offsets 0 and 7. -/
def outC5w : ScenOut :=
  ⟨"S5", some "failed", none, "",
   [⟨"s0", none, none, none⟩,
    ⟨"s1", none, none, some ⟨"passed", .parsed 10, 1, some 0⟩⟩,
    ⟨"s2", none, none, some ⟨"failed", .parsed 17, 2, some 7⟩⟩],
   none, some (.time 10), some 0, 3, 3⟩

/-- A rule matching every tag and appending `"A"`. -/
def tagRuleA : TagHandler := (fun _ => true, fun t => t ++ "A")

/-- A rule matching every tag and appending `"B"`. -/
def tagRuleB : TagHandler := (fun _ => true, fun t => t ++ "B")

/-- A well-formed fragment file for the loader. -/
def featC7 : RawFeature := ⟨"W7", "passed", none, none⟩

/-- One parseable file followed by one whose read-and-parse fails. -/
def filesC7 : List FileInput :=
  [FileInput.content "results/1run.json" (.ok [featC7]),
   FileInput.content "results/2run.json"
     (.error "Expecting value: line 1 column 1 (char 0)")]

/-- A configuration whose log-to-markup transformer wraps text in a
`<pre>` element. -/
def cfgLogs : Config := ⟨[], [], id, fun t => "<pre>" ++ t ++ "</pre>"⟩

/-- An untimed scenario (no steps). -/
def scenLogsA : RawScenario := ⟨"SA", none, none, []⟩

/-- A filesystem where `scenLogsA`'s `logs` directory exists and holds
one console log. -/
def fsLogsA : FS :=
  ⟨fun p => p == "report/F8/SA/logs",
   fun _ => ["report/F8/SA/logs/cucu.console.log"],
   fun _ => "RAWLOG"⟩

/-- A scenario with one timed step (timestamp 5). -/
def scenLogsB : RawScenario :=
  ⟨"SB", none, none, [⟨"go", some ⟨"passed", "5", 1⟩⟩]⟩

/-- The same logs layout for `scenLogsB`. -/
def fsLogsB : FS :=
  ⟨fun p => p == "report/F8/SB/logs",
   fun _ => ["report/F8/SB/logs/cucu.console.log"],
   fun _ => "RAWLOG"⟩

/-- A failed result with the malformed timestamp `"not-a-timestamp"`. -/
def resC9 : RawResult := ⟨"failed", "not-a-timestamp", 1⟩

/-- The step carrying `resC9`. -/
def stepC9 : RawStep := ⟨"boom", some resC9⟩

/-- The scenario owning `stepC9`. -/
def scenC9 : RawScenario := ⟨"SB9", some "failed", none, [stepC9]⟩

/-- A feature whose only step has the malformed timestamp. -/
def featC9 : RawFeature := ⟨"FB", "failed", none, some [scenC9]⟩

/-- The fragment list holding `featC9`. -/
def filesC9 : List FileInput :=
  [FileInput.content "results/1run.json" (.ok [featC9])]

/-- An untested feature that nevertheless carries scenario elements. -/
def featC10 : RawFeature := ⟨"FU", "untested", none, some [scenVal]⟩

/-- The fragment list holding `featC10`. -/
def filesC10 : List FileInput :=
  [FileInput.content "results/1run.json" (.ok [featC10])]

/-- The `generate` output over `filesC10`: the feature is reported with
all-zero rollups and the grand totals are zero. -/
def oC10w : Output :=
  ⟨[⟨"FU", "untested", none, [], some .emptyStr, 0, 0, 0, 0, 0, 0⟩],
   ⟨0, 0, 0, 0, 0⟩, [], []⟩

theorem processStep_image {fs : FS} {uq : String → String} {path : String}
    {idx : Nat} {anchor : Option Int} {step : RawStep}
    {s : StepOut} {a : Option Int} {d : Int}
    (h : processStep fs uq path idx anchor step = .ok (s, a, d)) :
    s.image = if fs.pathExists (joinPath path (imageFilename idx step.name))
      then some (uq (imageFilename idx step.name)) else none := by
  unfold processStep at h
  repeat' split at h
  all_goals
    simp only [Except.ok.injEq, Prod.mk.injEq] at h
  all_goals
    obtain ⟨h1, -, -⟩ := h
  all_goals subst h1
  all_goals rfl

theorem processStep_duration {fs : FS} {uq : String → String} {path : String}
    {idx : Nat} {anchor : Option Int} {step : RawStep}
    {s : StepOut} {a : Option Int} {d : Int}
    (h : processStep fs uq path idx anchor step = .ok (s, a, d)) :
    d = (match step.result with | some r => r.duration | none => 0) := by
  unfold processStep at h
  repeat' split at h
  all_goals
    simp only [Except.ok.injEq, Prod.mk.injEq] at h
  all_goals
    obtain ⟨-, -, h3⟩ := h
  all_goals subst h3
  all_goals simp_all

theorem processStep_untimed {fs : FS} {uq : String → String} {path : String}
    {idx : Nat} {anchor : Option Int} {step : RawStep}
    {s : StepOut} {a : Option Int} {d : Int}
    (ht : timedStep step = false)
    (h : processStep fs uq path idx anchor step = .ok (s, a, d)) :
    a = anchor ∧
      s.result = step.result.map (fun r =>
        { status := r.status, timestamp := .raw r.timestamp,
          duration := r.duration, time_offset := none }) := by
  unfold processStep at h
  unfold timedStep at ht
  repeat' split at h
  all_goals
    simp only [Except.ok.injEq, Prod.mk.injEq] at h
  all_goals
    obtain ⟨h1, h2, -⟩ := h
  all_goals subst h1
  all_goals subst h2
  all_goals simp_all

theorem processStep_anchored {fs : FS} {uq : String → String} {path : String}
    {idx : Nat} {x : Int} {step : RawStep}
    {s : StepOut} {a : Option Int} {d : Int}
    (h : processStep fs uq path idx (some x) step = .ok (s, a, d)) :
    a = some x := by
  unfold processStep at h
  repeat' split at h
  all_goals
    simp only [Except.ok.injEq, Prod.mk.injEq] at h
  all_goals
    obtain ⟨-, h2, -⟩ := h
  all_goals simp_all

theorem processStep_timed {fs : FS} {uq : String → String} {path : String}
    {idx : Nat} {anchor : Option Int} {step : RawStep}
    {s : StepOut} {a : Option Int} {d : Int}
    (ht : timedStep step = true)
    (h : processStep fs uq path idx anchor step = .ok (s, a, d)) :
    ∃ r ts so, step.result = some r ∧ parseTimestamp r.timestamp = some ts ∧
      s.result = some so ∧ so.status = r.status ∧ so.duration = r.duration ∧
      so.timestamp = .parsed ts ∧ a = some (anchor.getD ts) ∧
      so.time_offset = some (ts - anchor.getD ts) := by
  cases hres : step.result with
  | none => rw [timedStep, hres] at ht; cases ht
  | some r =>
    rw [timedStep, hres] at ht
    dsimp only at ht
    have hcond : r.status = "failed" ∨ r.status = "passed" := of_decide_eq_true ht
    rw [processStep, hres] at h
    dsimp only at h
    rw [if_pos hcond] at h
    cases hts : parseTimestamp r.timestamp with
    | none => rw [hts] at h; cases h
    | some ts =>
      rw [hts] at h
      cases anchor with
      | none =>
        dsimp only at h
        simp only [Option.getD, Except.ok.injEq, Prod.mk.injEq] at h ⊢
        obtain ⟨h1, h2, -⟩ := h
        subst h1
        exact ⟨r, ts, _, rfl, hts, rfl, rfl, rfl, rfl, h2.symm, rfl⟩
      | some x =>
        dsimp only at h
        simp only [Option.getD, Except.ok.injEq, Prod.mk.injEq] at h ⊢
        obtain ⟨h1, h2, -⟩ := h
        subst h1
        exact ⟨r, ts, _, rfl, hts, rfl, rfl, rfl, rfl, h2.symm, rfl⟩

theorem processStep_parses {fs : FS} {uq : String → String} {path : String}
    {idx : Nat} {anchor : Option Int} {step : RawStep}
    {s : StepOut} {a : Option Int} {d : Int}
    (h : processStep fs uq path idx anchor step = .ok (s, a, d))
    (ht : timedStep step = true) :
    ∃ r, step.result = some r ∧ (parseTimestamp r.timestamp).isSome := by
  obtain ⟨r, ts, so, hr, hts, -⟩ := processStep_timed ht h
  exact ⟨r, hr, by simp [hts]⟩

theorem processSteps_length {fs : FS} {uq : String → String} {path : String} :
    ∀ {steps : List RawStep} {idx : Nat} {anchor : Option Int}
      {outs : List StepOut} {aE : Option Int} {d : Int},
    processSteps fs uq path idx anchor steps = .ok (outs, aE, d) →
    outs.length = steps.length := by
  intro steps
  induction steps with
  | nil =>
    intro idx anchor outs aE d h
    rw [processSteps] at h
    simp only [Except.ok.injEq, Prod.mk.injEq] at h
    obtain ⟨h3, -, -⟩ := h
    subst h3
    rfl
  | cons st rest ih =>
    intro idx anchor outs aE d h
    rw [processSteps] at h
    cases h1 : processStep fs uq path idx anchor st with
    | error e => rw [h1] at h; cases h
    | ok v =>
      obtain ⟨s, a1, d1⟩ := v
      rw [h1] at h
      dsimp only at h
      cases h2 : processSteps fs uq path (idx + 1) a1 rest with
      | error e => rw [h2] at h; cases h
      | ok w =>
        obtain ⟨ss, a2, d2⟩ := w
        rw [h2] at h
        simp only [Except.ok.injEq, Prod.mk.injEq] at h
        obtain ⟨h3, -, -⟩ := h
        subst h3
        simp [ih h2]

theorem processStep_untimed_shape {fs : FS} {uq : String → String} {path : String}
    {idx : Nat} {anchor : Option Int} {step : RawStep}
    {s : StepOut} {a : Option Int} {d : Int}
    (h : processStep fs uq path idx anchor step = .ok (s, a, d))
    {ro : ResultOut} (hro : s.result = some ro)
    (hst : ¬(ro.status = "failed" ∨ ro.status = "passed")) :
    ro.time_offset = none ∧ ∃ rs, ro.timestamp = .raw rs := by
  cases ht : timedStep step with
  | true =>
    obtain ⟨r, ts, so, hr, -, hsr, hst', -⟩ := processStep_timed ht h
    rw [hsr] at hro
    cases hro
    rw [timedStep, hr] at ht
    dsimp only at ht
    exact absurd (hst' ▸ of_decide_eq_true ht) hst
  | false =>
    obtain ⟨-, hres⟩ := processStep_untimed ht h
    rw [hres] at hro
    cases hr : step.result with
    | none => rw [hr] at hro; cases hro
    | some r =>
      rw [hr] at hro
      dsimp only [Option.map] at hro
      cases hro
      exact ⟨rfl, r.timestamp, rfl⟩

theorem processSteps_duration {fs : FS} {uq : String → String} {path : String} :
    ∀ {steps : List RawStep} {idx : Nat} {anchor : Option Int}
      {outs : List StepOut} {aE : Option Int} {d : Int},
    processSteps fs uq path idx anchor steps = .ok (outs, aE, d) →
    d = sumStepDurations steps := by
  intro steps
  induction steps with
  | nil =>
    intro idx anchor outs aE d h
    rw [processSteps] at h
    simp only [Except.ok.injEq, Prod.mk.injEq] at h
    obtain ⟨-, -, h3⟩ := h
    subst h3
    rfl
  | cons st rest ih =>
    intro idx anchor outs aE d h
    rw [processSteps] at h
    cases h1 : processStep fs uq path idx anchor st with
    | error e => rw [h1] at h; cases h
    | ok v =>
      obtain ⟨s, a1, d1⟩ := v
      rw [h1] at h
      dsimp only at h
      cases h2 : processSteps fs uq path (idx + 1) a1 rest with
      | error e => rw [h2] at h; cases h
      | ok w =>
        obtain ⟨ss, a2, d2⟩ := w
        rw [h2] at h
        simp only [Except.ok.injEq, Prod.mk.injEq] at h
        obtain ⟨-, -, h3⟩ := h
        subst h3
        have hd1 := processStep_duration h1
        have hd2 := ih h2
        subst hd1
        subst hd2
        simp [sumStepDurations]

theorem processSteps_parses {fs : FS} {uq : String → String} {path : String} :
    ∀ {steps : List RawStep} {idx : Nat} {anchor : Option Int}
      {outs : List StepOut} {aE : Option Int} {d : Int},
    processSteps fs uq path idx anchor steps = .ok (outs, aE, d) →
    ∀ st ∈ steps, timedStep st = true →
      ∃ r, st.result = some r ∧ (parseTimestamp r.timestamp).isSome := by
  intro steps
  induction steps with
  | nil => intro idx anchor outs aE d h st hmem; cases hmem
  | cons st0 rest ih =>
    intro idx anchor outs aE d h st hmem ht
    rw [processSteps] at h
    cases h1 : processStep fs uq path idx anchor st0 with
    | error e => rw [h1] at h; cases h
    | ok v =>
      obtain ⟨s, a1, d1⟩ := v
      rw [h1] at h
      dsimp only at h
      cases h2 : processSteps fs uq path (idx + 1) a1 rest with
      | error e => rw [h2] at h; cases h
      | ok w =>
        obtain ⟨ss, a2, d2⟩ := w
        cases hmem with
        | head => exact processStep_parses h1 ht
        | tail _ hmem' => exact ih h2 st hmem' ht

theorem processSteps_anchor_preserved {fs : FS} {uq : String → String} {path : String} :
    ∀ {steps : List RawStep} {idx : Nat} {anchor : Option Int}
      {outs : List StepOut} {aE : Option Int} {d : Int},
    (∀ st ∈ steps, timedStep st = false) →
    processSteps fs uq path idx anchor steps = .ok (outs, aE, d) →
    aE = anchor := by
  intro steps
  induction steps with
  | nil =>
    intro idx anchor outs aE d _ h
    rw [processSteps] at h
    simp only [Except.ok.injEq, Prod.mk.injEq] at h
    obtain ⟨-, h2, -⟩ := h
    exact h2.symm
  | cons st0 rest ih =>
    intro idx anchor outs aE d hall h
    rw [processSteps] at h
    cases h1 : processStep fs uq path idx anchor st0 with
    | error e => rw [h1] at h; cases h
    | ok v =>
      obtain ⟨s, a1, d1⟩ := v
      rw [h1] at h
      dsimp only at h
      cases h2 : processSteps fs uq path (idx + 1) a1 rest with
      | error e => rw [h2] at h; cases h
      | ok w =>
        obtain ⟨ss, a2, d2⟩ := w
        rw [h2] at h
        simp only [Except.ok.injEq, Prod.mk.injEq] at h
        obtain ⟨-, h3, -⟩ := h
        subst h3
        have ha1 : a1 = anchor :=
          (processStep_untimed (hall st0 (List.mem_cons_self st0 rest)) h1).1
        subst ha1
        exact ih (fun st hm => hall st (List.mem_cons_of_mem st0 hm)) h2

theorem processSteps_untimed_shape {fs : FS} {uq : String → String} {path : String} :
    ∀ {steps : List RawStep} {idx : Nat} {anchor : Option Int}
      {outs : List StepOut} {aE : Option Int} {d : Int},
    processSteps fs uq path idx anchor steps = .ok (outs, aE, d) →
    ∀ so ∈ outs, ∀ ro, so.result = some ro →
      ¬(ro.status = "failed" ∨ ro.status = "passed") →
      ro.time_offset = none ∧ ∃ rs, ro.timestamp = .raw rs := by
  intro steps
  induction steps with
  | nil =>
    intro idx anchor outs aE d h so hmem
    rw [processSteps] at h
    simp only [Except.ok.injEq, Prod.mk.injEq] at h
    obtain ⟨h1, -, -⟩ := h
    subst h1
    cases hmem
  | cons st0 rest ih =>
    intro idx anchor outs aE d h so hmem ro hro hst
    rw [processSteps] at h
    cases h1 : processStep fs uq path idx anchor st0 with
    | error e => rw [h1] at h; cases h
    | ok v =>
      obtain ⟨s, a1, d1⟩ := v
      rw [h1] at h
      dsimp only at h
      cases h2 : processSteps fs uq path (idx + 1) a1 rest with
      | error e => rw [h2] at h; cases h
      | ok w =>
        obtain ⟨ss, a2, d2⟩ := w
        rw [h2] at h
        simp only [Except.ok.injEq, Prod.mk.injEq] at h
        obtain ⟨h3, -, -⟩ := h
        subst h3
        cases hmem with
        | head => exact processStep_untimed_shape h1 hro hst
        | tail _ hmem' => exact ih h2 so hmem' ro hro hst

theorem processSteps_image {fs : FS} {uq : String → String} {path : String} :
    ∀ {steps : List RawStep} {idx : Nat} {anchor : Option Int}
      {outs : List StepOut} {aE : Option Int} {d : Int},
    processSteps fs uq path idx anchor steps = .ok (outs, aE, d) →
    ∀ i (hi : i < steps.length) (ho : i < outs.length),
      (outs.get ⟨i, ho⟩).image =
        if fs.pathExists (joinPath path (imageFilename (idx + i) (steps.get ⟨i, hi⟩).name))
        then some (uq (imageFilename (idx + i) (steps.get ⟨i, hi⟩).name)) else none := by
  intro steps
  induction steps with
  | nil => intro idx anchor outs aE d h i hi ho; cases hi
  | cons st0 rest ih =>
    intro idx anchor outs aE d h i hi ho
    rw [processSteps] at h
    cases h1 : processStep fs uq path idx anchor st0 with
    | error e => rw [h1] at h; cases h
    | ok v =>
      obtain ⟨s, a1, d1⟩ := v
      rw [h1] at h
      dsimp only at h
      cases h2 : processSteps fs uq path (idx + 1) a1 rest with
      | error e => rw [h2] at h; cases h
      | ok w =>
        obtain ⟨ss, a2, d2⟩ := w
        rw [h2] at h
        simp only [Except.ok.injEq, Prod.mk.injEq] at h
        obtain ⟨h3, -, -⟩ := h
        subst h3
        cases i with
        | zero =>
          rw [Nat.add_zero]
          exact processStep_image h1
        | succ k =>
          have hk : k < rest.length := Nat.lt_of_succ_lt_succ hi
          have hko : k < ss.length := Nat.lt_of_succ_lt_succ ho
          have harith : idx + (k + 1) = idx + 1 + k := by omega
          rw [show ((st0 :: rest).get ⟨k + 1, hi⟩) = rest.get ⟨k, hk⟩ from rfl,
              show ((s :: ss).get ⟨k + 1, ho⟩) = ss.get ⟨k, hko⟩ from rfl, harith]
          exact ih h2 k hk hko

theorem processSteps_anchored_all {fs : FS} {uq : String → String} {path : String} :
    ∀ {steps : List RawStep} {idx : Nat} {x : Int}
      {outs : List StepOut} {aE : Option Int} {d : Int},
    processSteps fs uq path idx (some x) steps = .ok (outs, aE, d) →
    aE = some x ∧
    ∀ i (hi : i < steps.length) (ho : i < outs.length),
      timedStep (steps.get ⟨i, hi⟩) = true →
      ∃ ri ti si, (steps.get ⟨i, hi⟩).result = some ri ∧
        parseTimestamp ri.timestamp = some ti ∧
        (outs.get ⟨i, ho⟩).result = some si ∧ si.time_offset = some (ti - x) := by
  intro steps
  induction steps with
  | nil =>
    intro idx x outs aE d h
    rw [processSteps] at h
    simp only [Except.ok.injEq, Prod.mk.injEq] at h
    obtain ⟨h1, h2, -⟩ := h
    subst h1
    exact ⟨h2.symm, fun i hi => absurd hi (Nat.not_lt_zero i)⟩
  | cons st0 rest ih =>
    intro idx x outs aE d h
    rw [processSteps] at h
    cases h1 : processStep fs uq path idx (some x) st0 with
    | error e => rw [h1] at h; cases h
    | ok v =>
      obtain ⟨s, a1, d1⟩ := v
      rw [h1] at h
      dsimp only at h
      cases h2 : processSteps fs uq path (idx + 1) a1 rest with
      | error e => rw [h2] at h; cases h
      | ok w =>
        obtain ⟨ss, a2, d2⟩ := w
        rw [h2] at h
        simp only [Except.ok.injEq, Prod.mk.injEq] at h
        obtain ⟨h3, h4, -⟩ := h
        subst h3
        subst h4
        have ha1 : a1 = some x := processStep_anchored h1
        subst ha1
        obtain ⟨haE, htail⟩ := ih h2
        refine ⟨haE, ?_⟩
        intro i hi ho ht
        cases i with
        | zero =>
          obtain ⟨r, ts, so, hr, hts, hsr, -, -, -, -, hoff⟩ := processStep_timed ht h1
          exact ⟨r, ts, so, hr, hts, hsr, hoff⟩
        | succ k =>
          have hk : k < rest.length := Nat.lt_of_succ_lt_succ hi
          have hko : k < ss.length := Nat.lt_of_succ_lt_succ ho
          exact htail k hk hko ht

theorem processSteps_first_timed {fs : FS} {uq : String → String} {path : String} :
    ∀ {steps : List RawStep} {idx : Nat}
      {outs : List StepOut} {aE : Option Int} {d : Int},
    processSteps fs uq path idx none steps = .ok (outs, aE, d) →
    ∀ j (hj : j < steps.length),
      timedStep (steps.get ⟨j, hj⟩) = true →
      (∀ k (hk : k < steps.length), k < j → timedStep (steps.get ⟨k, hk⟩) = false) →
    ∃ r a, (steps.get ⟨j, hj⟩).result = some r ∧
      parseTimestamp r.timestamp = some a ∧ aE = some a ∧
      ∀ i (hi : i < steps.length) (ho : i < outs.length),
        timedStep (steps.get ⟨i, hi⟩) = true →
        ∃ ri ti si, (steps.get ⟨i, hi⟩).result = some ri ∧
          parseTimestamp ri.timestamp = some ti ∧
          (outs.get ⟨i, ho⟩).result = some si ∧ si.time_offset = some (ti - a) := by
  intro steps
  induction steps with
  | nil => intro idx outs aE d h j hj; cases hj
  | cons st0 rest ih =>
    intro idx outs aE d h j hj htj hbefore
    rw [processSteps] at h
    cases h1 : processStep fs uq path idx none st0 with
    | error e => rw [h1] at h; cases h
    | ok v =>
      obtain ⟨s, a1, d1⟩ := v
      rw [h1] at h
      dsimp only at h
      cases h2 : processSteps fs uq path (idx + 1) a1 rest with
      | error e => rw [h2] at h; cases h
      | ok w =>
        obtain ⟨ss, a2, d2⟩ := w
        rw [h2] at h
        simp only [Except.ok.injEq, Prod.mk.injEq] at h
        obtain ⟨h3, h4, -⟩ := h
        subst h3
        subst h4
        cases j with
        | zero =>
          have ht0 : timedStep st0 = true := htj
          obtain ⟨r, ts, so, hr, hts, hsr, -, -, -, ha1, hoff⟩ :=
            processStep_timed ht0 h1
          have ha1' : a1 = some ts := ha1
          subst ha1'
          obtain ⟨haE, htail⟩ := processSteps_anchored_all h2
          refine ⟨r, ts, hr, hts, haE, ?_⟩
          intro i hi ho ht
          cases i with
          | zero => exact ⟨r, ts, so, hr, hts, hsr, hoff⟩
          | succ k =>
            have hk : k < rest.length := Nat.lt_of_succ_lt_succ hi
            have hko : k < ss.length := Nat.lt_of_succ_lt_succ ho
            exact htail k hk hko ht
        | succ j' =>
          have ht0 : timedStep st0 = false :=
            hbefore 0 (Nat.succ_pos _) (Nat.succ_pos j')
          have ha1 : a1 = none := (processStep_untimed ht0 h1).1
          subst ha1
          have hj' : j' < rest.length := Nat.lt_of_succ_lt_succ hj
          have hbefore' : ∀ k (hk : k < rest.length), k < j' →
              timedStep (rest.get ⟨k, hk⟩) = false := by
            intro k hk hkj
            exact hbefore (k + 1) (Nat.succ_lt_succ hk) (Nat.succ_lt_succ hkj)
          obtain ⟨r, a, hr, hts, haE, htail⟩ := ih h2 j' hj' htj hbefore'
          refine ⟨r, a, hr, hts, haE, ?_⟩
          intro i hi ho ht
          cases i with
          | zero =>
            rw [show ((st0 :: rest).get ⟨0, hi⟩) = st0 from rfl, ht0] at ht
            cases ht
          | succ k =>
            have hk : k < rest.length := Nat.lt_of_succ_lt_succ hi
            have hko : k < ss.length := Nat.lt_of_succ_lt_succ ho
            exact htail k hk hko ht

theorem processScenario_inv {cfg : Config} {fs : FS} {bp fn : String}
    {fa : Option Int} {ls : Option (List LogEntry)} {scen : RawScenario}
    {out : ScenOut} {fa2 : Option Int} {ls2 : Option (List LogEntry)}
    {w : List (String × String)}
    (h : processScenario cfg fs bp fn fa ls scen = .ok (out, fa2, ls2, w)) :
    ∃ steps anchor dur,
      processSteps fs cfg.urlQuote (joinPath (joinPath bp fn) scen.name) 0 none
          scen.steps = .ok (steps, anchor, dur) ∧
      out.name = scen.name ∧ out.status = scen.status ∧
      out.tags = process_tags cfg.tagHandlers scen.tags ∧
      out.steps = steps ∧ out.duration = dur ∧
      out.total_steps = scen.steps.length ∧
      ((anchor = none ∧ out.started_at = some .emptyStr ∧ out.time_offset = none ∧
          fa2 = fa ∧ w = []) ∨
       (∃ a, anchor = some a ∧ out.started_at = some (.time a) ∧
          fa2 = some (fa.getD a) ∧ out.time_offset = some (a - fa.getD a))) := by
  unfold processScenario at h
  dsimp only at h
  cases hsteps : processSteps fs cfg.urlQuote (joinPath (joinPath bp fn) scen.name) 0 none
      scen.steps with
  | error e => rw [hsteps] at h; cases h
  | ok v =>
    obtain ⟨steps, anchor, dur⟩ := v
    rw [hsteps] at h
    dsimp only at h
    refine ⟨steps, anchor, dur, rfl, ?_⟩
    by_cases hdir : fs.pathExists (joinPath (joinPath (joinPath bp fn) scen.name) "logs") = true
    · simp only [if_pos hdir] at h
      cases anchor with
      | none =>
        dsimp only at h
        simp only [Except.ok.injEq, Prod.mk.injEq] at h
        obtain ⟨h1, h2, h3, h4⟩ := h
        subst h1
        exact ⟨rfl, rfl, rfl, rfl, rfl, rfl, Or.inl ⟨rfl, rfl, rfl, h2.symm, h4.symm⟩⟩
      | some a =>
        dsimp only at h
        simp only [Except.ok.injEq, Prod.mk.injEq] at h
        obtain ⟨h1, h2, h3, h4⟩ := h
        subst h1
        refine ⟨rfl, rfl, rfl, rfl, rfl, rfl, Or.inr ⟨a, rfl, rfl, ?_, ?_⟩⟩
        · cases fa <;> exact h2.symm
        · cases fa <;> rfl
    · simp only [if_neg hdir] at h
      cases anchor with
      | none =>
        dsimp only at h
        simp only [Except.ok.injEq, Prod.mk.injEq] at h
        obtain ⟨h1, h2, h3, h4⟩ := h
        subst h1
        exact ⟨rfl, rfl, rfl, rfl, rfl, rfl, Or.inl ⟨rfl, rfl, rfl, h2.symm, h4.symm⟩⟩
      | some a =>
        cases ls with
        | none => dsimp only at h; cases h
        | some lst =>
          dsimp only at h
          simp only [Except.ok.injEq, Prod.mk.injEq] at h
          obtain ⟨h1, h2, h3, h4⟩ := h
          subst h1
          refine ⟨rfl, rfl, rfl, rfl, rfl, rfl, Or.inr ⟨a, rfl, rfl, ?_, ?_⟩⟩
          · cases fa <;> exact h2.symm
          · cases fa <;> rfl

theorem processScenarios_statuses {cfg : Config} {fs : FS} {bp fn : String} :
    ∀ {scens : List RawScenario} {fa : Option Int} {ls : Option (List LogEntry)}
      {outs : List ScenOut} {fa2 : Option Int} {ls2 : Option (List LogEntry)}
      {w : List (String × String)},
    processScenarios cfg fs bp fn fa ls scens = .ok (outs, fa2, ls2, w) →
    outs.map (fun s => s.status) = scens.map (fun s => s.status) := by
  intro scens
  induction scens with
  | nil =>
    intro fa ls outs fa2 ls2 w h
    rw [processScenarios] at h
    simp only [Except.ok.injEq, Prod.mk.injEq] at h
    obtain ⟨h1, -, -, -⟩ := h
    subst h1
    rfl
  | cons s0 rest ih =>
    intro fa ls outs fa2 ls2 w h
    rw [processScenarios] at h
    cases h1 : processScenario cfg fs bp fn fa ls s0 with
    | error e => rw [h1] at h; cases h
    | ok v =>
      obtain ⟨out, fa1, ls1, w1⟩ := v
      rw [h1] at h
      dsimp only at h
      cases h2 : processScenarios cfg fs bp fn fa1 ls1 rest with
      | error e => rw [h2] at h; cases h
      | ok u =>
        obtain ⟨outs', fa2', ls2', w2⟩ := u
        rw [h2] at h
        simp only [Except.ok.injEq, Prod.mk.injEq] at h
        obtain ⟨h3, -, -, -⟩ := h
        subst h3
        obtain ⟨-, -, -, -, -, hstat, -⟩ := processScenario_inv h1
        simp [ih h2, hstat]

theorem processScenarios_mem_inv {cfg : Config} {fs : FS} {bp fn : String} :
    ∀ {scens : List RawScenario} {fa : Option Int} {ls : Option (List LogEntry)}
      {outs : List ScenOut} {fa2 : Option Int} {ls2 : Option (List LogEntry)}
      {w : List (String × String)},
    processScenarios cfg fs bp fn fa ls scens = .ok (outs, fa2, ls2, w) →
    ∀ out ∈ outs, ∃ scen ∈ scens, ∃ fa' ls' fa2' ls2' w',
      processScenario cfg fs bp fn fa' ls' scen = .ok (out, fa2', ls2', w') := by
  intro scens
  induction scens with
  | nil =>
    intro fa ls outs fa2 ls2 w h out hmem
    rw [processScenarios] at h
    simp only [Except.ok.injEq, Prod.mk.injEq] at h
    obtain ⟨h1, -, -, -⟩ := h
    subst h1
    cases hmem
  | cons s0 rest ih =>
    intro fa ls outs fa2 ls2 w h out hmem
    rw [processScenarios] at h
    cases h1 : processScenario cfg fs bp fn fa ls s0 with
    | error e => rw [h1] at h; cases h
    | ok v =>
      obtain ⟨out0, fa1, ls1, w1⟩ := v
      rw [h1] at h
      dsimp only at h
      cases h2 : processScenarios cfg fs bp fn fa1 ls1 rest with
      | error e => rw [h2] at h; cases h
      | ok u =>
        obtain ⟨outs', fa2', ls2', w2⟩ := u
        rw [h2] at h
        simp only [Except.ok.injEq, Prod.mk.injEq] at h
        obtain ⟨h3, -, -, -⟩ := h
        subst h3
        cases hmem with
        | head =>
          exact ⟨s0, List.mem_cons_self s0 rest, fa, ls, fa1, ls1, w1, h1⟩
        | tail _ hmem' =>
          obtain ⟨scen, hs, rest'⟩ := ih h2 out hmem'
          exact ⟨scen, List.mem_cons_of_mem s0 hs, rest'⟩

theorem processScenarios_anchor_preserved {cfg : Config} {fs : FS} {bp fn : String} :
    ∀ {scens : List RawScenario} {fa : Option Int} {ls : Option (List LogEntry)}
      {outs : List ScenOut} {fa2 : Option Int} {ls2 : Option (List LogEntry)}
      {w : List (String × String)},
    (∀ s ∈ scens, ∀ st ∈ s.steps, timedStep st = false) →
    processScenarios cfg fs bp fn fa ls scens = .ok (outs, fa2, ls2, w) →
    fa2 = fa := by
  intro scens
  induction scens with
  | nil =>
    intro fa ls outs fa2 ls2 w _ h
    rw [processScenarios] at h
    simp only [Except.ok.injEq, Prod.mk.injEq] at h
    obtain ⟨-, h2, -, -⟩ := h
    exact h2.symm
  | cons s0 rest ih =>
    intro fa ls outs fa2 ls2 w hall h
    rw [processScenarios] at h
    cases h1 : processScenario cfg fs bp fn fa ls s0 with
    | error e => rw [h1] at h; cases h
    | ok v =>
      obtain ⟨out0, fa1, ls1, w1⟩ := v
      rw [h1] at h
      dsimp only at h
      cases h2 : processScenarios cfg fs bp fn fa1 ls1 rest with
      | error e => rw [h2] at h; cases h
      | ok u =>
        obtain ⟨outs', fa2', ls2', w2⟩ := u
        rw [h2] at h
        simp only [Except.ok.injEq, Prod.mk.injEq] at h
        obtain ⟨-, h3, -, -⟩ := h
        subst h3
        obtain ⟨steps, anchor, dur, hsteps, -, -, -, -, -, -, hcase⟩ :=
          processScenario_inv h1
        have hanchor : anchor = none :=
          processSteps_anchor_preserved
            (hall s0 (List.mem_cons_self s0 rest)) hsteps
        cases hcase with
        | inl hc =>
          have hfa1 : fa1 = fa := hc.2.2.2.1
          subst hfa1
          exact ih (fun s hm => hall s (List.mem_cons_of_mem s0 hm)) h2
        | inr hc =>
          obtain ⟨a, ha, -⟩ := hc
          rw [hanchor] at ha
          cases ha

theorem processScenarios_parses {cfg : Config} {fs : FS} {bp fn : String} :
    ∀ {scens : List RawScenario} {fa : Option Int} {ls : Option (List LogEntry)}
      {outs : List ScenOut} {fa2 : Option Int} {ls2 : Option (List LogEntry)}
      {w : List (String × String)},
    processScenarios cfg fs bp fn fa ls scens = .ok (outs, fa2, ls2, w) →
    ∀ s ∈ scens, ∀ st ∈ s.steps, timedStep st = true →
      ∃ r, st.result = some r ∧ (parseTimestamp r.timestamp).isSome := by
  intro scens
  induction scens with
  | nil => intro fa ls outs fa2 ls2 w h s hmem; cases hmem
  | cons s0 rest ih =>
    intro fa ls outs fa2 ls2 w h s hmem st hst ht
    rw [processScenarios] at h
    cases h1 : processScenario cfg fs bp fn fa ls s0 with
    | error e => rw [h1] at h; cases h
    | ok v =>
      obtain ⟨out0, fa1, ls1, w1⟩ := v
      rw [h1] at h
      dsimp only at h
      cases h2 : processScenarios cfg fs bp fn fa1 ls1 rest with
      | error e => rw [h2] at h; cases h
      | ok u =>
        obtain ⟨outs', fa2', ls2', w2⟩ := u
        cases hmem with
        | head =>
          obtain ⟨steps, anchor, dur, hsteps, -⟩ := processScenario_inv h1
          exact processSteps_parses hsteps st hst ht
        | tail _ hmem' => exact ih h2 s hmem' st hst ht

theorem keepFeature_iff {of : Bool} {f : RawFeature} :
    keepFeature of f = true ↔ ¬(of = true ∧ f.status ≠ "failed") := by
  unfold keepFeature
  cases of <;> simp

theorem processFeature_skip {cfg : Config} {fs : FS} {bp : String} {of : Bool}
    {ls : Option (List LogEntry)} {f : RawFeature}
    (hk : keepFeature of f = false) :
    processFeature cfg fs bp of ls f = .ok (none, ls, []) := by
  unfold processFeature
  rw [if_pos]
  rw [keepFeature] at hk
  cases of with
  | false => simp at hk
  | true => simp at hk; exact ⟨rfl, hk⟩

theorem processFeature_inv {cfg : Config} {fs : FS} {bp : String} {of : Bool}
    {ls : Option (List LogEntry)} {f : RawFeature}
    {pf : ProcFeature} {ls2 : Option (List LogEntry)} {w : List (String × String)}
    (h : processFeature cfg fs bp of ls f = .ok (some pf, ls2, w)) :
    keepFeature of f = true ∧
    ∃ outs fAnchor,
      processScenarios cfg fs bp f.name none ls (featureScenarios f) =
        .ok (outs, fAnchor, ls2, w) ∧
      pf.name = f.name ∧ pf.status = f.status ∧
      pf.tags = process_tags cfg.tagHandlers f.tags ∧
      pf.scenarios = outs ∧
      pf.duration = (outs.map (fun s => s.duration)).sum ∧
      pf.total_steps = (outs.map (fun s => s.total_steps)).sum ∧
      pf.total_scenarios = (featureScenarios f).length ∧
      pf.total_scenarios_passed = (countScenarios (featureScenarios f)).passed ∧
      pf.total_scenarios_failed = (countScenarios (featureScenarios f)).failed ∧
      pf.total_scenarios_skipped = (countScenarios (featureScenarios f)).skipped ∧
      pf.started_at = (match fAnchor with
        | none => some TimeVal.emptyStr
        | some a => some (TimeVal.time a)) := by
  unfold processFeature at h
  split at h
  · simp only [Except.ok.injEq, Prod.mk.injEq] at h
    obtain ⟨h1, -, -⟩ := h
    cases h1
  · rename_i hcond
    refine ⟨keepFeature_iff.mpr hcond, ?_⟩
    dsimp only at h
    cases hsc : processScenarios cfg fs bp f.name none ls (featureScenarios f) with
    | error e => rw [hsc] at h; cases h
    | ok v =>
      obtain ⟨outs, fAnchor, ls', w'⟩ := v
      rw [hsc] at h
      dsimp only at h
      simp only [Except.ok.injEq, Prod.mk.injEq] at h
      obtain ⟨h1, h2, h3⟩ := h
      injection h1 with h1
      subst h1
      subst h2
      subst h3
      exact ⟨outs, fAnchor, rfl, rfl, rfl, rfl, rfl, rfl, rfl, rfl, rfl, rfl, rfl, rfl⟩

theorem processFeature_none_inv {cfg : Config} {fs : FS} {bp : String} {of : Bool}
    {ls : Option (List LogEntry)} {f : RawFeature}
    {ls2 : Option (List LogEntry)} {w : List (String × String)}
    (h : processFeature cfg fs bp of ls f = .ok (none, ls2, w)) :
    keepFeature of f = false ∧ ls2 = ls ∧ w = [] := by
  unfold processFeature at h
  split at h
  · rename_i hc
    simp only [Except.ok.injEq, Prod.mk.injEq] at h
    obtain ⟨-, h2, h3⟩ := h
    refine ⟨?_, h2.symm, h3.symm⟩
    cases hkf : keepFeature of f with
    | false => rfl
    | true => exact absurd hc (keepFeature_iff.mp hkf)
  · dsimp only at h
    cases hsc : processScenarios cfg fs bp f.name none ls (featureScenarios f) with
    | error e => rw [hsc] at h; cases h
    | ok v =>
      obtain ⟨outs, fA, ls1, w1⟩ := v
      rw [hsc] at h
      dsimp only at h
      simp only [Except.ok.injEq, Prod.mk.injEq] at h
      obtain ⟨h1, -, -⟩ := h
      cases h1

theorem processFeatures_names {cfg : Config} {fs : FS} {bp : String} {of : Bool} :
    ∀ {features : List RawFeature} {ls : Option (List LogEntry)}
      {pfs : List ProcFeature} {ls2 : Option (List LogEntry)}
      {w : List (String × String)},
    processFeatures cfg fs bp of ls features = .ok (pfs, ls2, w) →
    pfs.map (fun p => p.name) =
      (features.filter (fun f => keepFeature of f)).map (fun f => f.name) := by
  intro features
  induction features with
  | nil =>
    intro ls pfs ls2 w h
    rw [processFeatures] at h
    simp only [Except.ok.injEq, Prod.mk.injEq] at h
    obtain ⟨h1, -, -⟩ := h
    subst h1
    rfl
  | cons f0 rest ih =>
    intro ls pfs ls2 w h
    rw [processFeatures] at h
    cases h1 : processFeature cfg fs bp of ls f0 with
    | error e => rw [h1] at h; cases h
    | ok v =>
      obtain ⟨pf0, ls1, w1⟩ := v
      rw [h1] at h
      dsimp only at h
      cases h2 : processFeatures cfg fs bp of ls1 rest with
      | error e => rw [h2] at h; cases h
      | ok u =>
        obtain ⟨pfs', ls2', w2⟩ := u
        rw [h2] at h
        cases pf0 with
        | none =>
          dsimp only at h
          simp only [Except.ok.injEq, Prod.mk.injEq] at h
          obtain ⟨h3, -, -⟩ := h
          subst h3
          have hk : keepFeature of f0 = false := (processFeature_none_inv h1).1
          simp [List.filter_cons, hk, ih h2]
        | some p =>
          dsimp only at h
          simp only [Except.ok.injEq, Prod.mk.injEq] at h
          obtain ⟨h3, -, -⟩ := h
          subst h3
          obtain ⟨hk, -, -, -, hname, -⟩ := processFeature_inv h1
          simp [List.filter_cons, hk, hname, ih h2]

theorem processFeatures_mem_inv {cfg : Config} {fs : FS} {bp : String} {of : Bool} :
    ∀ {features : List RawFeature} {ls : Option (List LogEntry)}
      {pfs : List ProcFeature} {ls2 : Option (List LogEntry)}
      {w : List (String × String)},
    processFeatures cfg fs bp of ls features = .ok (pfs, ls2, w) →
    ∀ pf ∈ pfs, ∃ f ∈ features, ∃ ls' ls2' w',
      processFeature cfg fs bp of ls' f = .ok (some pf, ls2', w') := by
  intro features
  induction features with
  | nil =>
    intro ls pfs ls2 w h pf hmem
    rw [processFeatures] at h
    simp only [Except.ok.injEq, Prod.mk.injEq] at h
    obtain ⟨h1, -, -⟩ := h
    subst h1
    cases hmem
  | cons f0 rest ih =>
    intro ls pfs ls2 w h pf hmem
    rw [processFeatures] at h
    cases h1 : processFeature cfg fs bp of ls f0 with
    | error e => rw [h1] at h; cases h
    | ok v =>
      obtain ⟨pf0, ls1, w1⟩ := v
      rw [h1] at h
      dsimp only at h
      cases h2 : processFeatures cfg fs bp of ls1 rest with
      | error e => rw [h2] at h; cases h
      | ok u =>
        obtain ⟨pfs', ls2', w2⟩ := u
        rw [h2] at h
        cases pf0 with
        | none =>
          dsimp only at h
          simp only [Except.ok.injEq, Prod.mk.injEq] at h
          obtain ⟨h3, -, -⟩ := h
          subst h3
          obtain ⟨f, hf, rest'⟩ := ih h2 pf hmem
          exact ⟨f, List.mem_cons_of_mem f0 hf, rest'⟩
        | some p =>
          dsimp only at h
          simp only [Except.ok.injEq, Prod.mk.injEq] at h
          obtain ⟨h3, -, -⟩ := h
          subst h3
          cases hmem with
          | head =>
            exact ⟨f0, List.mem_cons_self f0 rest, ls, ls1, w1, h1⟩
          | tail _ hmem' =>
            obtain ⟨f, hf, rest'⟩ := ih h2 pf hmem'
            exact ⟨f, List.mem_cons_of_mem f0 hf, rest'⟩

theorem processFeatures_mem_fwd {cfg : Config} {fs : FS} {bp : String} {of : Bool}
    {pf : ProcFeature} {f : RawFeature} :
    ∀ {features : List RawFeature} {ls : Option (List LogEntry)}
      {pfs : List ProcFeature} {ls2 : Option (List LogEntry)}
      {w : List (String × String)},
    f ∈ features →
    (∀ ls', processFeature cfg fs bp of ls' f = .ok (some pf, ls', [])) →
    processFeatures cfg fs bp of ls features = .ok (pfs, ls2, w) →
    pf ∈ pfs := by
  intro features
  induction features with
  | nil => intro ls pfs ls2 w hmem; cases hmem
  | cons f0 rest ih =>
    intro ls pfs ls2 w hmem hdet h
    rw [processFeatures] at h
    cases h1 : processFeature cfg fs bp of ls f0 with
    | error e => rw [h1] at h; cases h
    | ok v =>
      obtain ⟨pf0, ls1, w1⟩ := v
      rw [h1] at h
      dsimp only at h
      cases h2 : processFeatures cfg fs bp of ls1 rest with
      | error e => rw [h2] at h; cases h
      | ok u =>
        obtain ⟨pfs', ls2', w2⟩ := u
        rw [h2] at h
        cases hmem with
        | head =>
          rw [hdet ls] at h1
          simp only [Except.ok.injEq, Prod.mk.injEq] at h1
          obtain ⟨h1a, -, -⟩ := h1
          cases pf0 with
          | none => cases h1a
          | some p =>
            injection h1a with h1a
            subst h1a
            dsimp only at h
            simp only [Except.ok.injEq, Prod.mk.injEq] at h
            obtain ⟨h3, -, -⟩ := h
            subst h3
            exact List.mem_cons_self _ pfs'
        | tail _ hmem' =>
          cases pf0 with
          | none =>
            dsimp only at h
            simp only [Except.ok.injEq, Prod.mk.injEq] at h
            obtain ⟨h3, -, -⟩ := h
            subst h3
            exact ih hmem' hdet h2
          | some p =>
            dsimp only at h
            simp only [Except.ok.injEq, Prod.mk.injEq] at h
            obtain ⟨h3, -, -⟩ := h
            subst h3
            exact List.mem_cons_of_mem p (ih hmem' hdet h2)

theorem processFeatures_parses {cfg : Config} {fs : FS} {bp : String} {of : Bool} :
    ∀ {features : List RawFeature} {ls : Option (List LogEntry)}
      {pfs : List ProcFeature} {ls2 : Option (List LogEntry)}
      {w : List (String × String)},
    processFeatures cfg fs bp of ls features = .ok (pfs, ls2, w) →
    ∀ f ∈ features, keepFeature of f = true →
      ∀ s ∈ featureScenarios f, ∀ st ∈ s.steps, timedStep st = true →
        ∃ r, st.result = some r ∧ (parseTimestamp r.timestamp).isSome := by
  intro features
  induction features with
  | nil => intro ls pfs ls2 w h f hmem; cases hmem
  | cons f0 rest ih =>
    intro ls pfs ls2 w h f hmem hk s hs st hst ht
    rw [processFeatures] at h
    cases h1 : processFeature cfg fs bp of ls f0 with
    | error e => rw [h1] at h; cases h
    | ok v =>
      obtain ⟨pf0, ls1, w1⟩ := v
      rw [h1] at h
      dsimp only at h
      cases h2 : processFeatures cfg fs bp of ls1 rest with
      | error e => rw [h2] at h; cases h
      | ok u =>
        obtain ⟨pfs', ls2', w2⟩ := u
        cases hmem with
        | head =>
          cases pf0 with
          | none =>
            have hk0 : keepFeature of f0 = false := (processFeature_none_inv h1).1
            rw [hk0] at hk
            cases hk
          | some p =>
            obtain ⟨-, outs, fA, hsc, -⟩ := processFeature_inv h1
            exact processScenarios_parses hsc s hs st hst ht
        | tail _ hmem' => exact ih h2 f hmem' hk s hs st hst ht

theorem generate_inv {cfg : Config} {fs : FS} {files : List FileInput}
    {bp : String} {of : Bool} {o : Output}
    (h : generate cfg fs files bp of = .ok o) :
    ∃ features warns ls w,
      loadFragments files = .ok (features, warns) ∧
      processFeatures cfg fs bp of none features =
        .ok (o.reported_features, ls, w) ∧
      o.grand_totals = computeTotals o.reported_features ∧
      o.warnings = warns ∧ o.log_writes = w := by
  unfold generate at h
  cases hl : loadFragments files with
  | error e => rw [hl] at h; cases h
  | ok v =>
    obtain ⟨features, warns⟩ := v
    rw [hl] at h
    dsimp only at h
    cases hp : processFeatures cfg fs bp of none features with
    | error e => rw [hp] at h; cases h
    | ok u =>
      obtain ⟨reported, ls, w⟩ := u
      rw [hp] at h
      dsimp only at h
      injection h with h
      subst h
      exact ⟨features, warns, ls, w, rfl, hp, rfl, rfl, rfl⟩

theorem bumpCounters_good {c : Counters} {st : Option String} (h : goodStatus st) :
    (bumpCounters c st).passed + (bumpCounters c st).failed +
      (bumpCounters c st).skipped =
    c.passed + c.failed + c.skipped + 1 := by
  rcases h with h | h | h | h
  all_goals subst h
  all_goals simp [bumpCounters]
  all_goals omega

theorem countScenarios_foldl {scens : List RawScenario} :
    ∀ {c : Counters}, (∀ s ∈ scens, goodStatus s.status) →
    (scens.foldl (fun c s => bumpCounters c s.status) c).passed +
      (scens.foldl (fun c s => bumpCounters c s.status) c).failed +
      (scens.foldl (fun c s => bumpCounters c s.status) c).skipped =
    c.passed + c.failed + c.skipped + scens.length := by
  induction scens with
  | nil => intro c _; simp
  | cons s0 rest ih =>
    intro c hall
    have hgood : goodStatus s0.status := hall s0 (List.mem_cons_self s0 rest)
    have := ih (fun s hm => hall s (List.mem_cons_of_mem s0 hm))
      (c := bumpCounters c s0.status)
    simp only [List.foldl_cons, List.length_cons]
    rw [this, bumpCounters_good hgood]
    omega

theorem countScenarios_partition {scens : List RawScenario}
    (h : ∀ s ∈ scens, goodStatus s.status) :
    (countScenarios scens).passed + (countScenarios scens).failed +
      (countScenarios scens).skipped = scens.length := by
  unfold countScenarios
  rw [countScenarios_foldl h]
  simp

/-- C1: For every feature retained by aggregation whose scenarios'
statuses all fall in the classification domain (absent, `passed`,
`failed` or `skipped`), the rollup counters partition its scenarios:
`total_scenarios = total_scenarios_passed + total_scenarios_failed +
total_scenarios_skipped`, a scenario with no status counting as skipped;
and the grand totals equal, for each counter and for duration, the sum
over exactly the features retained after the `only_failures` filter
(excluded features contribute nothing).  The domain restriction amends
the original claim: a scenario whose status is some other string (for
example `"untested"`) is counted in `total_scenarios` but in none of the
three buckets. -/
theorem C1_rollup_partition_and_totals (cfg : Config) (gfs : FS)
    (files : List FileInput) (bp : String) (of : Bool) (o : Output)
    (hgen : generate cfg gfs files bp of = .ok o) :
    (∀ pf ∈ o.reported_features,
        (∀ s ∈ pf.scenarios, goodStatus s.status) →
        pf.total_scenarios =
          pf.total_scenarios_passed + pf.total_scenarios_failed +
            pf.total_scenarios_skipped) ∧
    o.grand_totals.total_scenarios =
      (o.reported_features.map (fun p => p.total_scenarios)).sum ∧
    o.grand_totals.total_scenarios_passed =
      (o.reported_features.map (fun p => p.total_scenarios_passed)).sum ∧
    o.grand_totals.total_scenarios_failed =
      (o.reported_features.map (fun p => p.total_scenarios_failed)).sum ∧
    o.grand_totals.total_scenarios_skipped =
      (o.reported_features.map (fun p => p.total_scenarios_skipped)).sum ∧
    o.grand_totals.duration =
      (o.reported_features.map (fun p => p.duration)).sum ∧
    (∀ features warns, loadFragments files = .ok (features, warns) →
      o.reported_features.map (fun p => p.name) =
        (features.filter (fun f => keepFeature of f)).map (fun f => f.name)) := by
  obtain ⟨features, warns, ls, w, hl, hp, htot, -, -⟩ := generate_inv hgen
  refine ⟨?_, ?_, ?_, ?_, ?_, ?_, ?_⟩
  · intro pf hmem hgood
    obtain ⟨f, hf, ls', ls2', w', hpf⟩ := processFeatures_mem_inv hp pf hmem
    obtain ⟨-, outs, fA, hsc, -, -, -, hscen, -, -, htotalsc, hpassed, hfailed,
      hskipped, -⟩ := processFeature_inv hpf
    have hstat := processScenarios_statuses hsc
    have hgood' : ∀ s ∈ featureScenarios f, goodStatus s.status := by
      intro s hs
      have hmm : s.status ∈ (featureScenarios f).map (fun s => s.status) :=
        List.mem_map_of_mem _ hs
      rw [← hstat] at hmm
      obtain ⟨o', ho', hos⟩ := List.mem_map.mp hmm
      rw [← hos]
      exact hgood o' (hscen ▸ ho')
    rw [htotalsc, hpassed, hfailed, hskipped]
    exact (countScenarios_partition hgood').symm
  · rw [htot]; rfl
  · rw [htot]; rfl
  · rw [htot]; rfl
  · rw [htot]; rfl
  · rw [htot]; rfl
  · intro features' warns' hl'
    rw [hl] at hl'
    simp only [Except.ok.injEq, Prod.mk.injEq] at hl'
    obtain ⟨h1, -⟩ := hl'
    subst h1
    exact processFeatures_names hp

/-- C1, counterexample to the claim as stated: on a feature containing a
scenario with status `"untested"`, aggregation reports
`total_scenarios = 1` while the three buckets sum to `0`, so the rollup
counters do not partition the scenarios. -/
theorem C1_rollup_counterexample :
    ((generate cfgNoop fsEmpty
        [FileInput.content "results/1run.json" (.ok [featMixed])]
        "report" false).map
      (fun o => o.reported_features.map (fun p =>
        (p.total_scenarios,
         p.total_scenarios_passed + p.total_scenarios_failed +
           p.total_scenarios_skipped)))) = .ok [(1, 0)] ∧ (1 : Nat) ≠ 0 :=
  ⟨rfl, one_ne_zero⟩

theorem C1_rollup_witness :
    pfC1w.total_scenarios =
      pfC1w.total_scenarios_passed + pfC1w.total_scenarios_failed +
        pfC1w.total_scenarios_skipped ∧
    oC1w.grand_totals.duration =
      (oC1w.reported_features.map (fun p => p.duration)).sum := by
  have h := C1_rollup_partition_and_totals cfgNoop fsEmpty
    [FileInput.content "results/1run.json" (.ok [featLogin])]
    "report" false oC1w rfl
  refine ⟨h.1 pfC1w ?_ ?_, h.2.2.2.2.2.1⟩
  · simp [oC1w]
  · intro s hs
    simp only [pfC1w] at hs
    simp only [List.mem_singleton] at hs
    subst hs
    right; left; rfl

/-- C2 (amended): for every step at index `i` of a processed scenario, a
screenshot reference is attached if and only if the file named
`"<i> - <step name with SLASHES replaced by underscores>.png"` exists in
the scenario's artifact directory; the attached reference is the
URL-quoted filename.  The amendment replaces the claim's "special
characters sanitized" reading: only `/` is rewritten, so the step
`click "Submit"` at index 2 associates with `2 - click "Submit".png`
(quotes kept), not with `2 - click _Submit_.png`. -/
theorem C2_screenshot_assoc (cfg : Config) (fs : FS) (bp fn : String)
    (fa : Option Int) (ls : Option (List LogEntry)) (scen : RawScenario)
    (out : ScenOut) (fa2 : Option Int) (ls2 : Option (List LogEntry))
    (w : List (String × String))
    (h : processScenario cfg fs bp fn fa ls scen = .ok (out, fa2, ls2, w)) :
    out.steps.length = scen.steps.length ∧
    ∀ i (hi : i < scen.steps.length) (ho : i < out.steps.length),
      (out.steps.get ⟨i, ho⟩).image =
        (if fs.pathExists (joinPath (joinPath (joinPath bp fn) scen.name)
              (imageFilename i (scen.steps.get ⟨i, hi⟩).name))
         then some (cfg.urlQuote (imageFilename i (scen.steps.get ⟨i, hi⟩).name))
         else none) := by
  obtain ⟨steps, anchor, dur, hsteps, -, -, -, hout, -⟩ := processScenario_inv h
  subst hout
  refine ⟨processSteps_length hsteps, ?_⟩
  intro i hi ho
  have := processSteps_image hsteps i hi ho
  rwa [Nat.zero_add] at this

/-- C2, counterexample to the claim as stated: the file
`2 - click _Submit_.png` exists on disk, yet the step at index 2 named
`click "Submit"` gets no screenshot reference, because the code only
replaces slashes and therefore probes `2 - click "Submit".png`. -/
theorem C2_screenshot_counterexample :
    fsC2.pathExists "report/F/S/2 - click _Submit_.png" = true ∧
    ((processScenario cfgNoop fsC2 "report" "F" none (some []) scenC2).map
      (fun r => r.1.steps.map (fun s => s.image))) = .ok [none, none, none] ∧
    imageFilename 2 "click \"Submit\"" ≠ "2 - click _Submit_.png" :=
  ⟨rfl, rfl, by decide⟩

theorem C2_screenshot_witness :
    (outC2w.steps.get ⟨2, by decide⟩).image =
      some "2 - click \"Submit\".png" := by
  have h := C2_screenshot_assoc cfgNoop fsC2w "report" "F" none (some [])
    scenC2 outC2w none (some []) [] rfl
  have h2 := h.2 2 (by decide) (by decide)
  exact h2.trans (by decide)

/-- C3 (amended): for every scenario with zero timed steps, aggregation
leaves `time_offset` absent but stores the EMPTY STRING sentinel in
`started_at` (so the field is present, though no default timestamp value
is ever stored); likewise every feature all of whose processed scenarios
are untimed gets `started_at` set to the empty string.  The amendment
replaces the claim's "started_at is explicitly absent": only
`time_offset` is absent. -/
theorem C3_untimed_sentinel :
    (∀ (cfg : Config) (fs : FS) (bp fn : String) (fa : Option Int)
       (ls : Option (List LogEntry)) (scen : RawScenario) (out : ScenOut)
       (fa2 : Option Int) (ls2 : Option (List LogEntry))
       (w : List (String × String)),
       (∀ st ∈ scen.steps, timedStep st = false) →
       processScenario cfg fs bp fn fa ls scen = .ok (out, fa2, ls2, w) →
       out.started_at = some TimeVal.emptyStr ∧ out.time_offset = none) ∧
    (∀ (cfg : Config) (fs : FS) (bp : String) (of : Bool)
       (ls : Option (List LogEntry)) (f : RawFeature) (pf : ProcFeature)
       (ls2 : Option (List LogEntry)) (w : List (String × String)),
       (∀ s ∈ featureScenarios f, ∀ st ∈ s.steps, timedStep st = false) →
       processFeature cfg fs bp of ls f = .ok (some pf, ls2, w) →
       pf.started_at = some TimeVal.emptyStr) := by
  constructor
  · intro cfg fs bp fn fa ls scen out fa2 ls2 w hall h
    obtain ⟨steps, anchor, dur, hsteps, -, -, -, -, -, -, hcase⟩ :=
      processScenario_inv h
    have hanchor : anchor = none := processSteps_anchor_preserved hall hsteps
    cases hcase with
    | inl hc => exact ⟨hc.2.1, hc.2.2.1⟩
    | inr hc =>
      obtain ⟨a, ha, -⟩ := hc
      rw [hanchor] at ha
      cases ha
  · intro cfg fs bp of ls f pf ls2 w hall h
    obtain ⟨-, outs, fA, hsc, -, -, -, -, -, -, -, -, -, -, hstart⟩ :=
      processFeature_inv h
    have hfA : fA = none := processScenarios_anchor_preserved hall hsc
    rw [hfA] at hstart
    exact hstart

/-- C3, counterexample to the claim as stated: on an untimed scenario
and on a feature with no timed scenario, the `started_at` field IS added
(with the empty-string sentinel), so it is not "explicitly absent". -/
theorem C3_untimed_counterexample :
    ((processScenario cfgNoop fsEmpty "report" "F" none (some []) scenC3).map
      (fun r => r.1.started_at)) = .ok (some TimeVal.emptyStr) ∧
    ((processFeature cfgNoop fsEmpty "report" false (some []) featLogin).map
      (fun r => r.1.map (fun p => p.started_at))) =
      .ok (some (some TimeVal.emptyStr)) ∧
    some TimeVal.emptyStr ≠ (none : Option TimeVal) :=
  ⟨rfl, rfl, by decide⟩

theorem C3_untimed_witness :
    (∀ st ∈ scenC3.steps, timedStep st = false) ∧
    outC3w.started_at = some TimeVal.emptyStr ∧ outC3w.time_offset = none :=
  ⟨by decide,
   C3_untimed_sentinel.1 cfgNoop fsEmpty "report" "F" none (some []) scenC3
     outC3w none (some []) [] (by decide) rfl⟩

/-- C4: a scenario's derived duration is the sum of the `duration` fields
of all step results present, including skipped/untested results (which
contribute duration but keep their raw timestamp and get no
`time_offset`); and a feature's derived duration is the sum of its
processed scenarios' derived durations. -/
theorem C4_duration_sums :
    (∀ (cfg : Config) (fs : FS) (bp fn : String) (fa : Option Int)
       (ls : Option (List LogEntry)) (scen : RawScenario) (out : ScenOut)
       (fa2 : Option Int) (ls2 : Option (List LogEntry))
       (w : List (String × String)),
       processScenario cfg fs bp fn fa ls scen = .ok (out, fa2, ls2, w) →
       out.duration = sumStepDurations scen.steps ∧
       (∀ so ∈ out.steps, ∀ ro, so.result = some ro →
          ¬(ro.status = "failed" ∨ ro.status = "passed") →
          ro.time_offset = none ∧ ∃ rs, ro.timestamp = TsVal.raw rs)) ∧
    (∀ (cfg : Config) (fs : FS) (bp : String) (of : Bool)
       (ls : Option (List LogEntry)) (f : RawFeature) (pf : ProcFeature)
       (ls2 : Option (List LogEntry)) (w : List (String × String)),
       processFeature cfg fs bp of ls f = .ok (some pf, ls2, w) →
       pf.duration = (pf.scenarios.map (fun s => s.duration)).sum) := by
  constructor
  · intro cfg fs bp fn fa ls scen out fa2 ls2 w h
    obtain ⟨steps, anchor, dur, hsteps, -, -, -, hout, hdur, -⟩ :=
      processScenario_inv h
    refine ⟨hdur.trans (processSteps_duration hsteps), ?_⟩
    intro so hso ro hro hst
    exact processSteps_untimed_shape hsteps so (hout ▸ hso) ro hro hst
  · intro cfg fs bp of ls f pf ls2 w h
    obtain ⟨-, outs, fA, -, -, -, -, hscen, hdur, -⟩ := processFeature_inv h
    rw [hdur, hscen]

theorem C4_duration_witness :
    outC4w.duration = sumStepDurations scenC4.steps ∧
    pfC4w.duration = (pfC4w.scenarios.map (fun s => s.duration)).sum :=
  ⟨(C4_duration_sums.1 cfgNoop fsEmpty "report" "F4" none (some []) scenC4
      outC4w (some 10) (some []) [] (by rfl)).1,
   C4_duration_sums.2 cfgNoop fsEmpty "report" false (some []) featC4 pfC4w
     (some []) [] (by rfl)⟩

/-- C5: for every scenario with at least one timed step, the scenario's
anchor (`started_at`) is the first timed step's parsed timestamp, every
timed step's `time_offset` equals its timestamp minus that anchor, and
the first timed step's `time_offset` is zero. -/
theorem C5_time_offsets (cfg : Config) (fs : FS) (bp fn : String)
    (fa : Option Int) (ls : Option (List LogEntry)) (scen : RawScenario)
    (out : ScenOut) (fa2 : Option Int) (ls2 : Option (List LogEntry))
    (w : List (String × String))
    (h : processScenario cfg fs bp fn fa ls scen = .ok (out, fa2, ls2, w))
    (j : Nat) (hj : j < scen.steps.length)
    (hjt : timedStep (scen.steps.get ⟨j, hj⟩) = true)
    (hfirst : ∀ k (hk : k < scen.steps.length), k < j →
      timedStep (scen.steps.get ⟨k, hk⟩) = false) :
    ∃ r a, (scen.steps.get ⟨j, hj⟩).result = some r ∧
      parseTimestamp r.timestamp = some a ∧
      out.started_at = some (TimeVal.time a) ∧
      (∃ ho : j < out.steps.length, ∃ sj,
        (out.steps.get ⟨j, ho⟩).result = some sj ∧
        sj.time_offset = some 0) ∧
      ∀ i (hi : i < scen.steps.length) (ho : i < out.steps.length),
        timedStep (scen.steps.get ⟨i, hi⟩) = true →
        ∃ ri ti si, (scen.steps.get ⟨i, hi⟩).result = some ri ∧
          parseTimestamp ri.timestamp = some ti ∧
          (out.steps.get ⟨i, ho⟩).result = some si ∧
          si.time_offset = some (ti - a) := by
  obtain ⟨steps, anchor, dur, hsteps, -, -, -, hout, -, -, hcase⟩ :=
    processScenario_inv h
  subst hout
  obtain ⟨r, a, hr, hts, haE, htail⟩ :=
    processSteps_first_timed hsteps j hj hjt hfirst
  have hstarted : out.started_at = some (TimeVal.time a) := by
    cases hcase with
    | inl hc =>
      rw [hc.1] at haE
      cases haE
    | inr hc =>
      obtain ⟨a', ha', hs', -⟩ := hc
      rw [ha'] at haE
      injection haE with haE
      rw [hs', haE]
  have hlen : out.steps.length = scen.steps.length := processSteps_length hsteps
  have hoj : j < out.steps.length := by rw [hlen]; exact hj
  refine ⟨r, a, hr, hts, hstarted, ⟨hoj, ?_⟩, ?_⟩
  · obtain ⟨ri, ti, si, hri, hti, hsi, hoff⟩ := htail j hj hoj hjt
    rw [hr] at hri
    injection hri with hri
    subst hri
    rw [hts] at hti
    injection hti with hti
    subst hti
    exact ⟨si, hsi, by rw [hoff, sub_self]⟩
  · intro i hi ho ht
    exact htail i hi ho ht

theorem C5_time_offsets_witness :
    timedStep (scenC5.steps.get ⟨1, by decide⟩) = true ∧
    (∃ r a, (scenC5.steps.get ⟨1, by decide⟩).result = some r ∧
      parseTimestamp r.timestamp = some a ∧
      outC5w.started_at = some (TimeVal.time a) ∧
      (∃ ho : 1 < outC5w.steps.length, ∃ sj,
        (outC5w.steps.get ⟨1, ho⟩).result = some sj ∧
        sj.time_offset = some 0) ∧
      ∀ i (hi : i < scenC5.steps.length) (ho : i < outC5w.steps.length),
        timedStep (scenC5.steps.get ⟨i, hi⟩) = true →
        ∃ ri ti si, (scenC5.steps.get ⟨i, hi⟩).result = some ri ∧
          parseTimestamp ri.timestamp = some ti ∧
          (outC5w.steps.get ⟨i, ho⟩).result = some si ∧
          si.time_offset = some (ti - a)) :=
  ⟨by decide,
   C5_time_offsets cfgNoop fsEmpty "report" "F5" none (some []) scenC5
     outC5w (some 10) (some []) []
     (by rfl) 1 (by decide) (by decide)
     (by
       intro k hk hk1
       have hk0 : k = 0 := Nat.lt_one_iff.mp hk1
       subst hk0
       rfl)⟩

theorem runTagHandlers_eq_foldl :
    ∀ (hs : List TagHandler) (t : String),
    runTagHandlers hs t = hs.foldl (fun t h => if h.1 t then h.2 t else t) t := by
  intro hs
  induction hs with
  | nil => intro t; rfl
  | cons h rest ih => intro t; rw [runTagHandlers, List.foldl_cons, ih]

theorem prepareTags_eq_map (handlers : List TagHandler) :
    ∀ tags : List String,
    prepareTags handlers tags =
      tags.map (fun tag => runTagHandlers handlers ("@" ++ tag)) := by
  intro tags
  induction tags with
  | nil => rfl
  | cons t rest ih => rw [prepareTags, List.map_cons, ih]

/-- C6 (amended): an element without a tags collection is left untouched
(no tags field is produced); with a tags collection, each raw tag is
`@`-prefixed and then EVERY rule whose pattern matches the tag text built
so far has its transform applied, in order (a left fold over the ordered
rules, not first-match-only), and the results are joined with single
spaces.  The amendment replaces the claim's "only the first matching
rule applies". -/
theorem C6_tag_rules (handlers : List TagHandler) :
    process_tags handlers none = none ∧
    ∀ tags, process_tags handlers (some tags) =
      some (" ".intercalate (tags.map (fun tag =>
        handlers.foldl (fun t h => if h.1 t then h.2 t else t) ("@" ++ tag)))) := by
  refine ⟨rfl, ?_⟩
  intro tags
  rw [process_tags, prepareTags_eq_map]
  have hfun : (fun tag => runTagHandlers handlers ("@" ++ tag)) =
      (fun tag => handlers.foldl (fun t h => if h.1 t then h.2 t else t)
        ("@" ++ tag)) :=
    funext (fun tag => runTagHandlers_eq_foldl handlers ("@" ++ tag))
  rw [hfun]

/-- C6, counterexample to the claim as stated: with two rules that both
match, the code applies BOTH transforms in order (`@x` becomes `@xAB`),
while first-match-only semantics would stop after the first (`@xA`). -/
theorem C6_tag_rules_counterexample :
    process_tags [tagRuleA, tagRuleB] (some ["x"]) = some "@xAB" ∧
    process_tags_firstmatch [tagRuleA, tagRuleB] (some ["x"]) = some "@xA" ∧
    ("@xAB" : String) ≠ "@xA" :=
  ⟨rfl, rfl, by decide⟩

/-- C7 (amended): when every input file OPENS successfully, any failure
to read or parse a file's content (malformed JSON, read error) is caught:
the loader returns the concatenation of the successfully parsed files'
features, records one warning per failed file, and the run continues.
The amendment restricts the original claim to failures after a
successful `open`: the `open()` call itself sits outside the
`try`/`except`, so an I/O error while opening a file propagates and
aborts the whole run. -/
theorem C7_loader_recovery (files : List FileInput)
    (h : ∀ fi ∈ files, opensOk fi = true) :
    loadFragments files = .ok (mergedOk files, loadWarnings files) := by
  induction files with
  | nil => rfl
  | cons fi rest ih =>
    cases fi with
    | openFail p m =>
      have := h (.openFail p m) (List.mem_cons_self _ rest)
      rw [opensOk] at this
      cases this
    | content p res =>
      rw [loadFragments, ih (fun fi hm => h fi (List.mem_cons_of_mem _ hm))]
      cases res with
      | ok fs => rfl
      | error e => rfl

theorem C7_loader_witness :
    (∀ fi ∈ filesC7, opensOk fi = true) ∧
    loadFragments filesC7 =
      .ok ([featC7],
        ["unable to read file results/2run.json, got error: Expecting value: line 1 column 1 (char 0)"]) :=
  ⟨by decide, (C7_loader_recovery filesC7 (by decide)).trans (by rfl)⟩

/-- C7, counterexample to the claim as stated: a file whose `open()`
raises an I/O error aborts the whole run — the error is not caught, no
warning is recorded, and the remaining files are not aggregated. -/
theorem C7_loader_counterexample :
    generate cfgNoop fsEmpty
      [FileInput.openFail "results/bad_run.json"
         "PermissionError: [Errno 13] Permission denied: results/bad_run.json",
       FileInput.content "results/2run.json" (.ok [featC7])]
      "report" false =
    .error "PermissionError: [Errno 13] Permission denied: results/bad_run.json" :=
  rfl

/-- C8: evaluation at the failing input.  For the untimed scenario `SA`
the `logs` entry's display path is rewritten to the rendered sibling
`logs/cucu.console.log.html`, yet NO rendered file is written (the write
list is empty), because the read-transform-write loop sits inside the
branch taken only when the scenario has a timed anchor.  For the timed
scenario `SB` the same console log IS rendered and written.  The claim
(and the spec) say rendering happens for all such scenarios regardless
of timed steps; the code only does it for timed ones, leaving the
untimed scenario's displayed log path dangling. -/
theorem C8_console_log_render :
    ((processScenario cfgLogs fsLogsA "report" "F8" none none scenLogsA).map
      (fun r => (r.1.logs, r.2.2.2))) =
      .ok (some [⟨"logs/cucu.console.log.html", "cucu.console.log"⟩], []) ∧
    ((processScenario cfgLogs fsLogsB "report" "F8" none none scenLogsB).map
      (fun r => (r.1.logs, r.2.2.2))) =
      .ok (some [⟨"logs/cucu.console.log.html", "cucu.console.log"⟩],
        [("report/F8/SB/logs/cucu.console.log.html", "<pre>RAWLOG</pre>")]) :=
  ⟨rfl, rfl⟩

/-- C9: a step with a `passed`/`failed` result whose timestamp fails to
parse makes the whole aggregation run fail: `generate` returns an error
(the exception propagates; it is not caught, logged, or recovered
per-file), whenever the malformed step lies in a feature retained by the
`only_failures` filter. -/
theorem C9_timestamp_fatal (cfg : Config) (gfs : FS) (files : List FileInput)
    (bp : String) (of : Bool) (features : List RawFeature)
    (warns : List String) (f : RawFeature) (s : RawScenario) (st : RawStep)
    (r : RawResult)
    (hl : loadFragments files = .ok (features, warns))
    (hf : f ∈ features) (hk : keepFeature of f = true)
    (hs : s ∈ featureScenarios f) (hst : st ∈ s.steps)
    (hr : st.result = some r)
    (hstatus : r.status = "failed" ∨ r.status = "passed")
    (hbad : parseTimestamp r.timestamp = none) :
    ∃ msg, generate cfg gfs files bp of = .error msg := by
  cases hg : generate cfg gfs files bp of with
  | error m => exact ⟨m, rfl⟩
  | ok o =>
    exfalso
    obtain ⟨features', warns', ls, w, hl', hp, -⟩ := generate_inv hg
    rw [hl] at hl'
    simp only [Except.ok.injEq, Prod.mk.injEq] at hl'
    obtain ⟨h1, -⟩ := hl'
    subst h1
    have ht : timedStep st = true := by
      rw [timedStep, hr]
      dsimp only
      exact decide_eq_true hstatus
    obtain ⟨r', hr', hparse⟩ := processFeatures_parses hp f hf hk s hs st hst ht
    rw [hr] at hr'
    injection hr' with hr'
    subst hr'
    rw [hbad] at hparse
    cases hparse

theorem C9_timestamp_fatal_witness :
    loadFragments filesC9 = .ok ([featC9], []) ∧
    parseTimestamp "not-a-timestamp" = none ∧
    (∃ msg, generate cfgNoop fsEmpty filesC9 "report" false = .error msg) :=
  ⟨rfl, rfl,
   C9_timestamp_fatal cfgNoop fsEmpty filesC9 "report" false [featC9] []
     featC9 scenC9 stepC9 resC9 rfl (List.mem_singleton.mpr rfl) rfl
     (List.mem_singleton.mpr rfl) (List.mem_singleton.mpr rfl) rfl
     (Or.inl rfl) rfl⟩

theorem processFeature_untested {cfg : Config} {gfs : FS} {bp : String}
    {ls : Option (List LogEntry)} {f : RawFeature}
    (hun : f.status = "untested" ∨ f.elements = none) :
    processFeature cfg gfs bp false ls f =
      .ok (some ⟨f.name, f.status, process_tags cfg.tagHandlers f.tags, [],
        some .emptyStr, 0, 0, 0, 0, 0, 0⟩, ls, []) := by
  have hempty : featureScenarios f = [] := by
    unfold featureScenarios
    cases hel : f.elements with
    | none => rfl
    | some es =>
      cases hun with
      | inl h => rw [h]; simp
      | inr h => rw [hel] at h; cases h
  unfold processFeature
  dsimp only
  rw [if_neg (by simp), hempty]
  rfl

/-- C10: a feature whose status is `"untested"` or which lacks an
`elements` field is processed over an empty scenario list: its duration,
`total_steps` and all four scenario counters are zero even when the
input record does contain scenario elements, yet (with `only_failures`
off) the feature still appears among the reported features and
contributes its zeros to the grand totals, which remain the sums over
the reported features. -/
theorem C10_untested_zero_rollups (cfg : Config) (gfs : FS)
    (files : List FileInput) (bp : String) (features : List RawFeature)
    (warns : List String) (f : RawFeature) (o : Output)
    (hl : loadFragments files = .ok (features, warns))
    (hf : f ∈ features)
    (hun : f.status = "untested" ∨ f.elements = none)
    (hg : generate cfg gfs files bp false = .ok o) :
    (∃ pf ∈ o.reported_features, pf.name = f.name ∧ pf.scenarios = [] ∧
      pf.duration = 0 ∧ pf.total_steps = 0 ∧ pf.total_scenarios = 0 ∧
      pf.total_scenarios_passed = 0 ∧ pf.total_scenarios_failed = 0 ∧
      pf.total_scenarios_skipped = 0) ∧
    o.grand_totals.total_scenarios =
      (o.reported_features.map (fun p => p.total_scenarios)).sum ∧
    o.grand_totals.duration =
      (o.reported_features.map (fun p => p.duration)).sum := by
  obtain ⟨features', warns', ls, w, hl', hp, htot, -, -⟩ := generate_inv hg
  rw [hl] at hl'
  simp only [Except.ok.injEq, Prod.mk.injEq] at hl'
  obtain ⟨h1, -⟩ := hl'
  subst h1
  refine ⟨?_, by rw [htot]; rfl, by rw [htot]; rfl⟩
  have hdet : ∀ ls', processFeature cfg gfs bp false ls' f =
      .ok (some ⟨f.name, f.status, process_tags cfg.tagHandlers f.tags, [],
        some .emptyStr, 0, 0, 0, 0, 0, 0⟩, ls', []) :=
    fun ls' => processFeature_untested hun
  have hmem := processFeatures_mem_fwd hf hdet hp
  exact ⟨_, hmem, rfl, rfl, rfl, rfl, rfl, rfl, rfl, rfl⟩

theorem C10_untested_zero_rollups_witness :
    (featC10.status = "untested" ∨ featC10.elements = none) ∧
    ((∃ pf ∈ oC10w.reported_features, pf.name = featC10.name ∧
        pf.scenarios = [] ∧ pf.duration = 0 ∧ pf.total_steps = 0 ∧
        pf.total_scenarios = 0 ∧ pf.total_scenarios_passed = 0 ∧
        pf.total_scenarios_failed = 0 ∧ pf.total_scenarios_skipped = 0) ∧
      oC10w.grand_totals.total_scenarios =
        (oC10w.reported_features.map (fun p => p.total_scenarios)).sum ∧
      oC10w.grand_totals.duration =
        (oC10w.reported_features.map (fun p => p.duration)).sum) :=
  ⟨Or.inl rfl,
   C10_untested_zero_rollups cfgNoop fsEmpty filesC10 "report" [featC10]
     [] featC10 oC10w
     rfl (List.mem_singleton.mpr rfl) (Or.inl rfl) (by rfl)⟩
